import Mathlib

/-!
# Verification of the ghsa-client version model

Shallow embedding of `src/ghsa_client/models/version.py`: the canonical
version model, the format-detecting parser (semver, PEP 440, legacy
fallback), the comparison engine of the `semver` package as used by the
module, and the `VersionPredicate` component.  Strings are modelled as
`List Char` (Python `str` slicing and regex matching are by code point),
machine integers as `Nat`, and raising as `Option`/explicit outcome types.
-/

set_option maxHeartbeats 1000000

/-! ## Character classes and decimal numerals -/

/-- The regex class `[0-9]`. -/
def isDig (c : Char) : Bool := decide (48 ≤ c.toNat ∧ c.toNat ≤ 57)

/-- The regex class `[a-zA-Z]`. -/
def isAlphaC (c : Char) : Bool :=
  decide ((65 ≤ c.toNat ∧ c.toNat ≤ 90) ∨ (97 ≤ c.toNat ∧ c.toNat ≤ 122))

/-- Python whitespace (`\s`, `str.strip`): space, tab, newline, CR, VT, FF. -/
def isPyWS (c : Char) : Bool :=
  decide (c.toNat = 32 ∨ c.toNat = 9 ∨ c.toNat = 10 ∨ c.toNat = 13 ∨ c.toNat = 11 ∨ c.toNat = 12)

/-- ASCII lowercasing, as `str.lower` acts on the letters relevant here. -/
def lowerC (c : Char) : Char :=
  if 65 ≤ c.toNat ∧ c.toNat ≤ 90 then Char.ofNat (c.toNat + 32) else c

/-- The decimal digit characters, as produced by Python `str(int)`. -/
def digitChar : Nat → Char
  | 0 => '0' | 1 => '1' | 2 => '2' | 3 => '3' | 4 => '4'
  | 5 => '5' | 6 => '6' | 7 => '7' | 8 => '8' | _ => '9'

/-- Fuel-indexed digit rendering; the fuel only bounds the recursion depth
and `natToChars` supplies enough fuel for any value, so the zero-fuel arm
is unreachable beyond single digits. -/
def natToCharsAux : Nat → Nat → List Char
  | 0, n => [digitChar n]
  | fuel + 1, n =>
    if n < 10 then [digitChar n]
    else natToCharsAux fuel (n / 10) ++ [digitChar (n % 10)]

/-- Decimal rendering of a natural number, as Python `str(n)`. -/
def natToChars (n : Nat) : List Char := natToCharsAux n n

/-- Decimal reading of a digit string, as Python `int(s)`. -/
def charsToNat (l : List Char) : Nat :=
  l.foldl (fun a c => a * 10 + (c.toNat - 48)) 0

/-- Python `s.strip()`. -/
def trimWS (l : List Char) : List Char :=
  ((l.dropWhile isPyWS).reverse.dropWhile isPyWS).reverse

/-! ## List utilities mirroring the string operations of the source -/

/-- Split at the first occurrence of `c`: Python `s.split(c, 1)`. -/
def splitFirst (c : Char) : List Char → List Char × Option (List Char)
  | [] => ([], none)
  | a :: rest =>
    if a == c then ([], some rest)
    else
      let r := splitFirst c rest
      (a :: r.1, r.2)

/-- Split on every occurrence of `sep`: Python `s.split(sep)`. -/
def splitOnChar (sep : Char) : List Char → List (List Char)
  | [] => [[]]
  | c :: rest =>
    let r := splitOnChar sep rest
    if c == sep then [] :: r
    else
      match r with
      | h :: t => (c :: h) :: t
      | [] => [[c]]

/-- Rejoin dot-separated parts: Python `".".join(parts)`. -/
def joinDot : List (List Char) → List Char
  | [] => []
  | [p] => p
  | p :: q :: rest => p ++ '.' :: joinDot (q :: rest)

/-- Count occurrences of a character: Python `s.count(c)`. -/
def countC (c : Char) (l : List Char) : Nat :=
  l.foldl (fun n x => if x == c then n + 1 else n) 0

/-! ## The canonical version model (`semver.VersionInfo` contents) -/

/-- The fields of `semver.VersionInfo` as stored in `semver_parts`. -/
structure VersionCore where
  major : Nat
  minor : Nat
  patch : Nat
  prerelease : Option (List Char)
  build : Option (List Char)
deriving DecidableEq, Repr

/-- A numeric identifier of the semver grammar: `0|[1-9]\d*`. -/
def validNumChars (l : List Char) : Bool :=
  !l.isEmpty && l.all isDig && (l.length == 1 || l.head? != some '0')

/-- The regex class `[0-9a-zA-Z-]` of semver identifiers. -/
def isIdentChar (c : Char) : Bool := isDig c || isAlphaC c || c == '-'

/-- One dot-separated prerelease identifier: `0|[1-9]\d*|\d*[a-zA-Z-][0-9a-zA-Z-]*`. -/
def validPreIdent (l : List Char) : Bool :=
  !l.isEmpty && l.all isIdentChar &&
    (if l.all isDig then (l.length == 1 || l.head? != some '0') else true)

/-- One dot-separated build identifier: `[0-9a-zA-Z-]+`. -/
def validBuildIdent (l : List Char) : Bool := !l.isEmpty && l.all isIdentChar

/-- The full semver prerelease suffix grammar. -/
def validPre (l : List Char) : Bool := (splitOnChar '.' l).all validPreIdent

/-- The full semver build suffix grammar. -/
def validBuild (l : List Char) : Bool := (splitOnChar '.' l).all validBuildIdent

/-- Prerelease and build fields obey the semver suffix grammars.  Every
core produced by the parser satisfies this. -/
def wellformedCore (v : VersionCore) : Bool :=
  (match v.prerelease with | none => true | some p => validPre p) &&
  (match v.build with | none => true | some b => validBuild b)

/-- Model of `str(VersionInfo)`: `major.minor.patch[-prerelease][+build]`. -/
def renderCore (v : VersionCore) : List Char :=
  natToChars v.major ++ '.' :: natToChars v.minor ++ '.' :: natToChars v.patch
    ++ (match v.prerelease with | none => [] | some p => '-' :: p)
    ++ (match v.build with | none => [] | some b => '+' :: b)

/-- Model of `semver.VersionInfo.parse`, with `optional_minor_and_patch` as a flag:
split the build at the first `+`, the prerelease at the first `-`, then the
dotted numeric components, validating each against the semver regex. -/
def semverDecode (optMP : Bool) (s : List Char) : Option VersionCore :=
  let pb := splitFirst '+' s
  let pp := splitFirst '-' pb.1
  let buildOk := match pb.2 with | none => true | some b => validBuild b
  let preOk := match pp.2 with | none => true | some p => validPre p
  if buildOk && preOk then
    match splitOnChar '.' pp.1 with
    | [ma] =>
      if optMP && validNumChars ma then
        some ⟨charsToNat ma, 0, 0, pp.2, pb.2⟩
      else none
    | [ma, mi] =>
      if optMP && validNumChars ma && validNumChars mi then
        some ⟨charsToNat ma, charsToNat mi, 0, pp.2, pb.2⟩
      else none
    | [ma, mi, pa] =>
      if validNumChars ma && validNumChars mi && validNumChars pa then
        some ⟨charsToNat ma, charsToNat mi, charsToNat pa, pp.2, pb.2⟩
      else none
    | _ => none
  else none

/-! ## The PEP 440 parser (`packaging.version.Version`) as used by `_parse_pypi` -/

/-- Result of the PEP 440 regex plus the normalisation performed by
`packaging.version.Version.__init__`: `pre` holds the normalised letter and
number, `post` and `dev` hold the numbers only (as the `Version.post` and
`Version.dev` properties expose them), `localSeg` the raw local segment. -/
structure PyVersion where
  epoch : Nat
  release : List Nat
  pre : Option (List Char × Nat)
  post : Option Nat
  dev : Option Nat
  localSeg : Option (List Char)
deriving DecidableEq, Repr

/-- The regex class `[-_\.]` of PEP 440 separators. -/
def isSepC (c : Char) : Bool := c == '-' || c == '_' || c == '.'

/-- Consume the optional separator `[-_\.]?`. -/
def dropSep (s : List Char) : List Char :=
  match s with
  | c :: r => if isSepC c then r else s
  | [] => []

/-- Match the first keyword of `kws` that prefixes `s` (regex alternation
order), returning it and the remainder. -/
def matchKw : List (List Char) → List Char → Option (List Char × List Char)
  | [], _ => none
  | kw :: rest, s =>
    if kw.isPrefixOf s then some (kw, s.drop kw.length) else matchKw rest s

/-- Consume a nonempty digit group `[0-9]+` and read its value. -/
def takeNum (s : List Char) : Option (Nat × List Char) :=
  let ds := s.takeWhile isDig
  if ds.isEmpty then none else some (charsToNat ds, s.dropWhile isDig)

/-- The pre-release letters, in the alternation order of the PEP 440 regex:
`alpha|a|beta|b|preview|pre|c|rc`. -/
def preKws : List (List Char) :=
  ["alpha".data, "a".data, "beta".data, "b".data,
   "preview".data, "pre".data, "c".data, "rc".data]

/-- Model of `packaging._parse_letter_version` normalisation of a pre-release letter. -/
def normPreL (kw : List Char) : List Char :=
  if kw = "alpha".data then "a".data
  else if kw = "beta".data then "b".data
  else if kw = "c".data || kw = "pre".data || kw = "preview".data then "rc".data
  else kw

/-- The pre-release group `[-_\.]?(alpha|a|beta|b|preview|pre|c|rc)[-_\.]?([0-9]+)?`,
consuming nothing when the letter is absent. -/
def parsePre (s : List Char) : Option (List Char × Nat) × List Char :=
  match matchKw preKws (dropSep s) with
  | some (kw, r1) =>
    let r2 := dropSep r1
    match takeNum r2 with
    | some (n, r3) => (some (normPreL kw, n), r3)
    | none => (some (normPreL kw, 0), r2)
  | none => (none, s)

/-- The post-release letters in alternation order: `post|rev|r`. -/
def postKws : List (List Char) := ["post".data, "rev".data, "r".data]

/-- The letter form of the post group, `[-_\.]?(post|rev|r)[-_\.]?([0-9]+)?`. -/
def tryLetterPost (s : List Char) : Option Nat × List Char :=
  match matchKw postKws (dropSep s) with
  | some (_, r1) =>
    match takeNum (dropSep r1) with
    | some (n, r2) => (some n, r2)
    | none => (some 0, dropSep r1)
  | none => (none, s)

/-- The post group: `(?:-([0-9]+))|(?:[-_\.]?(post|rev|r)[-_\.]?([0-9]+)?)`. -/
def parsePost (s : List Char) : Option Nat × List Char :=
  match s with
  | '-' :: r =>
    (match takeNum r with
     | some (n, r2) => (some n, r2)
     | none => tryLetterPost s)
  | _ => tryLetterPost s

/-- The dev group: `[-_\.]?dev[-_\.]?([0-9]+)?`. -/
def parseDev (s : List Char) : Option Nat × List Char :=
  match matchKw ["dev".data] (dropSep s) with
  | some (_, r1) =>
    match takeNum (dropSep r1) with
    | some (n, r2) => (some n, r2)
    | none => (some 0, dropSep r1)
  | none => (none, s)

/-- The regex class `[a-z0-9]` of local-segment characters (the input has
been lowercased when this runs). -/
def isLocalChar (c : Char) : Bool := isDig c || decide (97 ≤ c.toNat ∧ c.toNat ≤ 122)

/-- Fuel-indexed body of `localGroups`; every step consumes at least one
character, so the list length is enough fuel. -/
def localGroupsF : Nat → List Char → List Char × List Char
  | 0, s => ([], s)
  | fuel + 1, s =>
    match s with
    | [] => ([], [])
    | c :: r =>
      if isSepC c then
        let g := r.takeWhile isLocalChar
        if g.isEmpty then ([], c :: r)
        else
          let rec2 := localGroupsF fuel (r.dropWhile isLocalChar)
          (c :: g ++ rec2.1, rec2.2)
      else ([], c :: r)

/-- Consume `([-_\.][a-z0-9]+)*`, returning the consumed part and the rest. -/
def localGroups (s : List Char) : List Char × List Char := localGroupsF s.length s

/-- The local group: `\+([a-z0-9]+([-_\.][a-z0-9]+)*)`; when `+` is present
but the body is malformed the group matches nothing, leaving the `+` for
the end-of-string check to reject. -/
def parseLocalSeg (s : List Char) : Option (List Char) × List Char :=
  match s with
  | '+' :: r =>
    let g := r.takeWhile isLocalChar
    if g.isEmpty then (none, s)
    else
      let more := localGroups (r.dropWhile isLocalChar)
      (some (g ++ more.1), more.2)
  | _ => (none, s)

/-- The epoch group `([0-9]+!)?`, defaulting to `0`. -/
def parseEpoch (s : List Char) : Nat × List Char :=
  let ds := s.takeWhile isDig
  if ds.isEmpty then (0, s)
  else
    match s.dropWhile isDig with
    | '!' :: r => (charsToNat ds, r)
    | _ => (0, s)

/-- Fuel-indexed body of `relAux`; every step consumes at least one
character, so the list length is enough fuel. -/
def relAuxF : Nat → List Char → List Nat × List Char
  | 0, s => ([], s)
  | fuel + 1, s =>
    match s with
    | [] => ([], [])
    | c :: r =>
      if c == '.' then
        let ds := r.takeWhile isDig
        if ds.isEmpty then ([], c :: r)
        else
          let rec2 := relAuxF fuel (r.dropWhile isDig)
          (charsToNat ds :: rec2.1, rec2.2)
      else ([], c :: r)

/-- The tail of the release group, `(\.[0-9]+)*`. -/
def relAux (s : List Char) : List Nat × List Char := relAuxF s.length s

/-- The release group `[0-9]+(\.[0-9]+)*`. -/
def parseRel (s : List Char) : Option (List Nat × List Char) :=
  let ds := s.takeWhile isDig
  if ds.isEmpty then none
  else
    let more := relAux (s.dropWhile isDig)
    some (charsToNat ds :: more.1, more.2)

/-- The optional leading `v` of the PEP 440 pattern. -/
def stripV (s : List Char) : List Char :=
  match s with
  | 'v' :: r => r
  | _ => s

/-- Model of `packaging.version.Version(s)`: strip surrounding whitespace, lowercase
(the regex is case-insensitive and every surviving letter is lowercased by
normalisation), strip an optional `v`, then match the anchored PEP 440
grammar, failing if characters remain. -/
def pypiParse (s0 : List Char) : Option PyVersion :=
  let s2 := stripV ((trimWS s0).map lowerC)
  let es := parseEpoch s2
  match parseRel es.2 with
  | none => none
  | some (rel, s4) =>
    let pr := parsePre s4
    let po := parsePost pr.2
    let dv := parseDev po.2
    let lo := parseLocalSeg dv.2
    if lo.2.isEmpty then some ⟨es.1, rel, pr.1, po.1, dv.1, lo.1⟩ else none

/-- Python truthiness of the `Optional[int]` properties `Version.dev` and
`Version.post`: `None` and `0` are both falsy. -/
def pyTruthy : Option Nat → Bool
  | none => false
  | some n => n != 0

/-- The conversion in `SemanticVersion._parse_pypi` from a parsed PEP 440
version to the semver fields handed to `VersionInfo(...)`: release maps to
the numeric triple (missing entries default to 0, epoch is discarded), the
pre-release letter expands to `alpha|beta|rc`, a truthy dev number becomes
build `dev.N`, a truthy post number becomes build `post.N`, or is appended
as `.postN` after an existing dev build. -/
def convertPypi (pv : PyVersion) : VersionCore :=
  let pre : Option (List Char) :=
    match pv.pre with
    | none => none
    | some (l, n) =>
      if l = "a".data then some ("alpha.".data ++ natToChars n)
      else if l = "b".data then some ("beta.".data ++ natToChars n)
      else if l = "rc".data then some ("rc.".data ++ natToChars n)
      else some (l ++ '.' :: natToChars n)
  let build1 : Option (List Char) :=
    if pyTruthy pv.dev then some ("dev.".data ++ natToChars (pv.dev.getD 0)) else none
  let build2 : Option (List Char) :=
    if pyTruthy pv.post then
      match build1 with
      | some b => some (b ++ ".post".data ++ natToChars (pv.post.getD 0))
      | none => some ("post.".data ++ natToChars (pv.post.getD 0))
    else build1
  ⟨pv.release.getD 0 0, pv.release.getD 1 0, pv.release.getD 2 0, pre, build2⟩

/-- Model of `SemanticVersion._parse_pypi` viewed as a decoder on the working string. -/
def pypiDecode (s : List Char) : Option VersionCore :=
  (pypiParse s).map convertPypi

/-! ## Prefix stripping and the decoder chain of `SemanticVersion.parse` -/

/-- Last index `i` with `l[i] = '@'` and `l[i+1] = 'v'`: the greedy match of
`.+@` in the prefix regex `^((?:.+@)?v|V)` picks the rightmost such pair. -/
def lastAtV : List Char → Option Nat
  | [] => none
  | _ :: [] => none
  | a :: b :: rest =>
    match lastAtV (b :: rest) with
    | some i => some (i + 1)
    | none => if a == '@' && b == 'v' then some 0 else none

/-- Model of `re.match("^((?:.+@)?v|V)(.*)", version)` followed by the group split in
`SemanticVersion.parse`: returns the captured prefix (empty when the regex
does not match, in which case the working string is the whole input) and
the working string.  `.` does not match a newline, so the `@v` pair must
lie before any newline and the second group stops at the first newline. -/
def stripPfx (s : List Char) : List Char × List Char :=
  let a := s.takeWhile (fun c => c != '\n')
  let fallback : List Char × List Char :=
    match s with
    | c :: _ =>
      if c == 'v' || c == 'V' then ([c], a.drop 1) else ([], s)
    | [] => ([], s)
  match lastAtV a with
  | some i => if 1 ≤ i then (s.take (i + 2), a.drop (i + 2)) else fallback
  | none => fallback

/-- The rewrite of `SemanticVersion._parse_legacy`: when the string has more
than two dots, `major.minor.patch.release` becomes `major.minor.patch-release`
(Python `split(".", maxsplit=3)` and an f-string). -/
def legacyRejoin (s : List Char) : List Char :=
  if countC '.' s > 2 then
    match splitFirst '.' s with
    | (a, some r1) =>
      match splitFirst '.' r1 with
      | (b, some r2) =>
        match splitFirst '.' r2 with
        | (c, some r3) => a ++ '.' :: b ++ '.' :: c ++ '-' :: r3
        | (_, none) => s
      | (_, none) => s
    | (_, none) => s
  else s

/-- The `VersionFormat` enum.  The source enum defines `SEMVER`, `PYPI` and
`UNKNOWN`; `RUBYGEMS` and `UBUNTU` are referenced by the tests of the repository
and specified decoders whose implementation is absent from the source, and
are carried here for the spec-modelled decoder below. -/
inductive VersionFormat where
  | SEMVER
  | PYPI
  | RUBYGEMS
  | UBUNTU
  | UNKNOWN
deriving DecidableEq, Repr

/-- The `SemanticVersion` model: `semver_parts` (as a `VersionCore`), the
original string, the stripped prefix (field `prefix` in the source) and the
detected format. -/
structure SemanticVersion where
  core : VersionCore
  original_version : List Char
  pfx : List Char
  version_format : VersionFormat
deriving DecidableEq, Repr

/-- Model of `SemanticVersion.parse` on the character list: strip the prefix, then
try `_parse_semver`, `_parse_pypi` and `_parse_legacy` in order, the first
success deciding `version_format`. -/
def parseL (s : List Char) : Option SemanticVersion :=
  let pr := stripPfx s
  match semverDecode true pr.2 with
  | some c => some ⟨c, s, pr.1, .SEMVER⟩
  | none =>
    match pypiDecode pr.2 with
    | some c => some ⟨c, s, pr.1, .PYPI⟩
    | none =>
      match semverDecode true (legacyRejoin pr.2) with
      | some c => some ⟨c, s, pr.1, .UNKNOWN⟩
      | none => none

/-- Model of `SemanticVersion.parse`; `none` models raising `ValueError`. -/
def parse (s : String) : Option SemanticVersion := parseL s.data

/-- Model of `SemanticVersion.__str__`: the prefix reapplied to `str(version_info)`. -/
def strChars (v : SemanticVersion) : List Char :=
  if v.pfx.isEmpty then renderCore v.core else v.pfx ++ renderCore v.core

/-- Model of `SemanticVersion.installable_version`: strip `len(prefix)` characters
from a non-empty `original_version`, else fall back to `str(self)`. -/
def installableChars (v : SemanticVersion) : List Char :=
  if v.original_version.isEmpty then strChars v
  else v.original_version.drop v.pfx.length

/-- Model of `SemanticVersion.to_semver`: `str(self.version_info)`. -/
def toSemver (v : SemanticVersion) : String := ⟨renderCore v.core⟩

/-- Model of `SemanticVersion.to_pypi`: numeric triple, the inverse pre-release
letter mapping, then the inverse dev/post mapping on the build. -/
def toPypiChars (v : SemanticVersion) : List Char :=
  let base := natToChars v.core.major ++ '.' :: natToChars v.core.minor
    ++ '.' :: natToChars v.core.patch
  let base := match v.core.prerelease with
    | none => base
    | some p =>
      if "alpha.".data.isPrefixOf p then base ++ 'a' :: (splitOnChar '.' p).getD 1 []
      else if "beta.".data.isPrefixOf p then base ++ 'b' :: (splitOnChar '.' p).getD 1 []
      else if "rc.".data.isPrefixOf p then base ++ "rc".data ++ (splitOnChar '.' p).getD 1 []
      else base ++ '-' :: p
  match v.core.build with
  | none => base
  | some b =>
    if "dev.".data.isPrefixOf b then base ++ ".dev".data ++ (splitOnChar '.' b).getD 1 []
    else if "post.".data.isPrefixOf b then base ++ ".post".data ++ (splitOnChar '.' b).getD 1 []
    else base ++ '+' :: b

/-! ## The comparison engine (`semver.Version.compare` and `_nat_cmp`) -/

/-- Three-way comparison of naturals, as Python tuple/int comparison. -/
def cmpN (a b : Nat) : Int := if a < b then -1 else if b < a then 1 else 0

/-- Python string comparison: lexicographic by code point. -/
def cmpLex : List Char → List Char → Int
  | [], [] => 0
  | [], _ :: _ => -1
  | _ :: _, [] => 1
  | a :: as, b :: bs =>
    if a.toNat < b.toNat then -1 else if b.toNat < a.toNat then 1 else cmpLex as bs

/-- Model of `convert` inside `_nat_cmp`: a part that fully matches `[0-9]+` becomes
an `int`, anything else stays a string. -/
def convertPart (p : List Char) : Sum Nat (List Char) :=
  if !p.isEmpty && p.all isDig then Sum.inl (charsToNat p) else Sum.inr p

/-- Model of `cmp_prerelease_tag`: ints compare numerically, an int sorts below a
string, strings compare lexicographically. -/
def cmpTag : Sum Nat (List Char) → Sum Nat (List Char) → Int
  | Sum.inl a, Sum.inl b => cmpN a b
  | Sum.inl _, Sum.inr _ => -1
  | Sum.inr _, Sum.inl _ => 1
  | Sum.inr a, Sum.inr b => cmpLex a b

/-- First nonzero entry of a list, else 0 (the zip loop of `_nat_cmp`). -/
def firstNonzero (l : List Int) : Int := (l.find? (fun x => x != 0)).getD 0

/-- Model of `semver._nat_cmp` on the two prerelease strings (`None` already turned
into `""`): compare dot-separated converted parts pairwise, then fall back
to comparing the lengths of the two strings. -/
def natCmp (a b : List Char) : Int :=
  let z := firstNonzero (List.zipWith
    (fun x y => cmpTag (convertPart x) (convertPart y))
    (splitOnChar '.' a) (splitOnChar '.' b))
  if z = 0 then cmpN a.length b.length else z

/-- Python truthiness of an optional prerelease string. -/
def preTruthy : Option (List Char) → Bool
  | none => false
  | some p => !p.isEmpty

/-- Model of `semver.Version.compare` on two canonical models: numeric triple first,
then `_nat_cmp` on the prereleases with the no-prerelease side winning.
`build` is not consulted. -/
def compareCore (x y : VersionCore) : Int :=
  let t1 := cmpN x.major y.major
  if t1 ≠ 0 then t1 else
  let t2 := cmpN x.minor y.minor
  if t2 ≠ 0 then t2 else
  let t3 := cmpN x.patch y.patch
  if t3 ≠ 0 then t3 else
  let rccmp := natCmp (x.prerelease.getD []) (y.prerelease.getD [])
  if rccmp = 0 then 0
  else if !preTruthy x.prerelease then 1
  else if !preTruthy y.prerelease then -1
  else rccmp

/-- Model of `SemanticVersion.__eq__` between two versions: `version_info` equality,
which is `compare == 0` and therefore ignores `build`. -/
def svEq (a b : SemanticVersion) : Bool := compareCore a.core b.core == 0

/-- Model of `SemanticVersion.__lt__`: `compare < 0`. -/
def svLt (a b : SemanticVersion) : Bool := decide (compareCore a.core b.core < 0)

/-! ## `SemanticVersion.__eq__` against arbitrary objects -/

/-- A Python value handed to `__eq__`: a `SemanticVersion` or anything else. -/
inductive PyObj where
  | sv (v : SemanticVersion)
  | otherObj
deriving DecidableEq

/-- Possible outcomes of Python `__eq__`. -/
inductive EqOutcome where
  | value (b : Bool)
  | raisesNotImplementedError
  | returnsNotImplementedSentinel
deriving DecidableEq

/-- Model of `SemanticVersion.__eq__`: a non-`SemanticVersion` argument raises
`NotImplementedError`; otherwise the `version_info` comparison decides. -/
def eqDunder (self : SemanticVersion) : PyObj → EqOutcome
  | PyObj.sv w => EqOutcome.value (svEq self w)
  | PyObj.otherObj => EqOutcome.raisesNotImplementedError

/-! ## `VersionPredicate` -/

/-- The `VersionPredicate` record: pydantic validates only the field types,
so any operator string constructs successfully. -/
structure VersionPredicate where
  operator : List Char
  version : List Char
  version_format : VersionFormat
deriving DecidableEq, Repr

/-- Model of `VersionPredicate.operator_to_symbol`; `none` models raising
`ValueError("Invalid operator: ...")`. -/
def opToSymbol (p : VersionPredicate) : Option (List Char) :=
  if p.operator = "<".data then some "__lt__".data
  else if p.operator = "<=".data then some "__le__".data
  else if p.operator = ">".data then some "__gt__".data
  else if p.operator = ">=".data then some "__ge__".data
  else if p.operator = "!=".data then some "__ne__".data
  else if p.operator = "==".data then some "__eq__".data
  else none

/-- The six operator tokens recognised by `operator_to_symbol`. -/
def sixOps : List (List Char) :=
  ["<".data, "<=".data, ">".data, ">=".data, "!=".data, "==".data]

/-- The leading-operator split of `re.match(r"^(!=|<=|>=|<|>|==|=)\s*(.*)", s)`
in `VersionPredicate.from_str`, honouring the alternation order. -/
def opSplitPred : List Char → Option (List Char × List Char)
  | [] => none
  | [c] =>
    if c == '<' || c == '>' then some ([c], [])
    else if c == '=' then some (['='], [])
    else none
  | c1 :: c2 :: rest =>
    if ([c1, c2] = "!=".data) || ([c1, c2] = "<=".data) || ([c1, c2] = ">=".data) then
      some ([c1, c2], rest)
    else if c1 == '<' || c1 == '>' then some ([c1], c2 :: rest)
    else if ([c1, c2] = "==".data) then some ([c1, c2], rest)
    else if c1 == '=' then some (['='], c2 :: rest)
    else none

/-- Model of `VersionPredicate.from_str`: strip, split the operator (a bare `=`
aliases to `==`), consume `\s*`, and re-normalise the version through
`SemanticVersion.parse`, storing `str(version_info)` and the detected
format.  `none` models raising `ValueError`. -/
def fromStr (s : String) : Option VersionPredicate :=
  let t := trimWS s.data
  match opSplitPred t with
  | none => none
  | some (op0, rest) =>
    let op := if op0 = "=".data then "==".data else op0
    let vstr := ((rest.dropWhile isPyWS).takeWhile (fun c => c != '\n'))
    match parseL vstr with
    | none => none
    | some v => some ⟨op, renderCore v.core, v.version_format⟩

/-- Model of `VersionPredicate.__str__`: operator concatenated with the version. -/
def strPred (p : VersionPredicate) : List Char := p.operator ++ p.version

/-- The `VersionPredicate.semver` property: `SemanticVersion.parse(self.version)`. -/
def semverOf (p : VersionPredicate) : Option SemanticVersion := parseL p.version

/-- Model of `VersionPredicate.to_pypi_predicate`; `none` when the `semver` property
would raise. -/
def toPypiPred (p : VersionPredicate) : Option (List Char) :=
  (semverOf p).map (fun r => p.operator ++ toPypiChars r)

/-- Model of `VersionPredicate.to_semver_predicate`. -/
def toSemverPred (p : VersionPredicate) : Option (List Char) :=
  (semverOf p).map (fun r => p.operator ++ renderCore r.core)

/-! ## `semver.Version.match`, used by `SemanticVersion.matches_predicate` -/

/-- The operator split of `semver.Version.match`: a two-character prefix in
`>=/<=/==/!=`, else a leading `<` or `>`, else an implicit `==` when the
expression starts with a digit. -/
def matchExprSplit (e : List Char) : Option (List Char × List Char) :=
  match e with
  | [] => none
  | [c] =>
    if c == '>' || c == '<' then some ([c], [])
    else if isDig c then some ("==".data, [c])
    else none
  | c1 :: c2 :: rest =>
    if ([c1, c2] = ">=".data) || ([c1, c2] = "<=".data) ||
       ([c1, c2] = "==".data) || ([c1, c2] = "!=".data) then
      some ([c1, c2], rest)
    else if c1 == '>' || c1 == '<' then some ([c1], c2 :: rest)
    else if isDig c1 then some ("==".data, c1 :: c2 :: rest)
    else none

/-- Model of `possibilities_dict` membership of a comparison result. -/
def possVal (op : List Char) (r : Int) : Bool :=
  if op = ">".data then r == 1
  else if op = "<".data then r == -1
  else if op = "==".data then r == 0
  else if op = "!=".data then r == -1 || r == 1
  else if op = ">=".data then r == 1 || r == 0
  else r == -1 || r == 0

/-- Model of `semver.Version.match`: split the operator, parse the remainder with
the strict `Version.parse`, compare, and look the result up; `none` models
the `ValueError` paths. -/
def matchExpr (c : VersionCore) (e : List Char) : Option Bool :=
  match matchExprSplit e with
  | none => none
  | some (op, vs) =>
    match semverDecode false vs with
    | none => none
    | some oc => some (possVal op (compareCore c oc))

/-- Model of `SemanticVersion.matches_predicate`: `self.version_info.match(str(predicate))`. -/
def matchesPredicate (v : SemanticVersion) (p : VersionPredicate) : Option Bool :=
  matchExpr v.core (strPred p)

/-! ## Spec-modelled RUBYGEMS decoder -/

/-- A strict dotted numeric triple `major.minor.patch`. -/
def tripleDecode (s : List Char) : Option (Nat × Nat × Nat) :=
  match splitOnChar '.' s with
  | [a, b, c] =>
    if validNumChars a && validNumChars b && validNumChars c then
      some (charsToNat a, charsToNat b, charsToNat c)
    else none
  | _ => none

/-- Modelled from the spec: the `RUBYGEMS` decoder is exercised by the
tests of the repository but absent from the source, which defines no such
branch or enum member.  Per the specification it accepts a well-formed
numeric triple directly followed (no separator) by a single letter plus
one or more digits, mapping the suffix verbatim into `build`, and rejects
anything else. -/
def rubygemsDecode (s : List Char) : Option VersionCore :=
  let rev := s.reverse
  let ds := rev.takeWhile isDig
  if ds.isEmpty then none
  else
    match rev.dropWhile isDig with
    | c :: restRev =>
      if isAlphaC c then
        match tripleDecode restRev.reverse with
        | some t => some ⟨t.1, t.2.1, t.2.2, none, some (c :: ds.reverse)⟩
        | none => none
      else none
    | [] => none

/-- Modelled from the spec: the decoder chain of the specification,
`SEMVER → PYPI → RUBYGEMS → LEGACY`, with the first success deciding the
format.  The `UBUNTU` decoder sits between `RUBYGEMS` and the legacy
fallback in the specification; it is likewise absent from the source and
not needed by any claim, so the chain here omits it. -/
def parseSpecL (s : List Char) : Option SemanticVersion :=
  let pr := stripPfx s
  match semverDecode true pr.2 with
  | some c => some ⟨c, s, pr.1, .SEMVER⟩
  | none =>
    match pypiDecode pr.2 with
    | some c => some ⟨c, s, pr.1, .PYPI⟩
    | none =>
      match rubygemsDecode pr.2 with
      | some c => some ⟨c, s, pr.1, .RUBYGEMS⟩
      | none =>
        match semverDecode true (legacyRejoin pr.2) with
        | some c => some ⟨c, s, pr.1, .UNKNOWN⟩
        | none => none

/-- Modelled from the spec: the spec-chain parser on strings. -/
def parseSpec (s : String) : Option SemanticVersion := parseSpecL s.data

/-- The numeric triple rendering shared by all decoders. -/
def renderTriple (ma mi pa : Nat) : List Char :=
  natToChars ma ++ '.' :: natToChars mi ++ '.' :: natToChars pa

/-! ## Numeral lemmas -/

theorem char_eq_of_toNat_eq {a b : Char} (h : a.toNat = b.toNat) : a = b := by
  have ha := Char.ofNat_toNat a
  have hb := Char.ofNat_toNat b
  rw [← ha, ← hb, h]

theorem digitChar_isDig {n : Nat} (h : n < 10) : isDig (digitChar n) = true := by
  have h10 : n = 0 ∨ n = 1 ∨ n = 2 ∨ n = 3 ∨ n = 4 ∨ n = 5 ∨ n = 6 ∨ n = 7 ∨ n = 8 ∨ n = 9 := by
    omega
  rcases h10 with rfl | rfl | rfl | rfl | rfl | rfl | rfl | rfl | rfl | rfl <;> decide

theorem digitChar_val {n : Nat} (h : n < 10) : (digitChar n).toNat - 48 = n := by
  have h10 : n = 0 ∨ n = 1 ∨ n = 2 ∨ n = 3 ∨ n = 4 ∨ n = 5 ∨ n = 6 ∨ n = 7 ∨ n = 8 ∨ n = 9 := by
    omega
  rcases h10 with rfl | rfl | rfl | rfl | rfl | rfl | rfl | rfl | rfl | rfl <;> decide

theorem isDig_toNat {c : Char} (h : isDig c = true) : 48 ≤ c.toNat ∧ c.toNat ≤ 57 := by
  simpa [isDig] using h

theorem digitChar_of_isDig {c : Char} (h : isDig c = true) : digitChar (c.toNat - 48) = c := by
  obtain ⟨h1, h2⟩ := isDig_toNat h
  apply char_eq_of_toNat_eq
  have h10 : c.toNat - 48 < 10 := by omega
  have hv := digitChar_val h10
  have hb := isDig_toNat (digitChar_isDig h10)
  omega

theorem digitChar_ne_zeroChar {n : Nat} (h1 : 1 ≤ n) (h2 : n < 10) : digitChar n ≠ '0' := by
  have h10 : n = 1 ∨ n = 2 ∨ n = 3 ∨ n = 4 ∨ n = 5 ∨ n = 6 ∨ n = 7 ∨ n = 8 ∨ n = 9 := by omega
  rcases h10 with rfl | rfl | rfl | rfl | rfl | rfl | rfl | rfl | rfl <;> decide

theorem natToCharsAux_fuel : ∀ (f1 n f2 : Nat), n ≤ f1 → n ≤ f2 →
    natToCharsAux f1 n = natToCharsAux f2 n := by
  intro f1
  induction f1 with
  | zero =>
    intro n f2 h1 _
    have hn : n = 0 := by omega
    subst hn
    cases f2 with
    | zero => rfl
    | succ f => simp [natToCharsAux]
  | succ f ih =>
    intro n f2 h1 h2
    by_cases hn : n < 10
    · cases f2 with
      | zero =>
        have hz : n = 0 := by omega
        subst hz
        simp [natToCharsAux]
      | succ f2' => simp [natToCharsAux, hn]
    · cases f2 with
      | zero => omega
      | succ f2' =>
        have hd : n / 10 < n := Nat.div_lt_self (by omega) (by omega)
        simp only [natToCharsAux, if_neg hn]
        rw [ih (n / 10) f2' (by omega) (by omega)]

theorem natToChars_unfold (n : Nat) :
    natToChars n = if n < 10 then [digitChar n] else natToChars (n / 10) ++ [digitChar (n % 10)] := by
  rw [natToChars]
  by_cases hn : n < 10
  · rw [if_pos hn]
    cases n with
    | zero => rfl
    | succ m => simp [natToCharsAux, hn]
  · rw [if_neg hn]
    rcases n with _ | m
    · omega
    · have hd : (m + 1) / 10 < m + 1 := Nat.div_lt_self (by omega) (by omega)
      simp only [natToCharsAux, if_neg hn]
      rw [natToCharsAux_fuel m ((m + 1) / 10) ((m + 1) / 10) (by omega) (by omega)]
      rfl

theorem natToChars_ne_nil (n : Nat) : natToChars n ≠ [] := by
  rw [natToChars_unfold]
  split
  · simp
  · simp

theorem natToChars_all_dig (n : Nat) : (natToChars n).all isDig = true := by
  induction n using Nat.strong_induction_on with
  | _ n ih =>
    rw [natToChars_unfold]
    split
    · next h => simp [digitChar_isDig h]
    · next h =>
      have hlt : n / 10 < n := Nat.div_lt_self (by omega) (by omega)
      have hmod : n % 10 < 10 := Nat.mod_lt _ (by omega)
      simp only [List.all_append, Bool.and_eq_true]
      exact ⟨ih _ hlt, by simp [digitChar_isDig hmod]⟩

theorem charsToNat_append_char (l : List Char) (d : Char) :
    charsToNat (l ++ [d]) = 10 * charsToNat l + (d.toNat - 48) := by
  simp [charsToNat, List.foldl_append]
  omega

theorem charsToNat_natToChars (n : Nat) : charsToNat (natToChars n) = n := by
  induction n using Nat.strong_induction_on with
  | _ n ih =>
    rw [natToChars_unfold]
    split
    · next h =>
      simp [charsToNat, digitChar_val h]
    · next h =>
      have hlt : n / 10 < n := Nat.div_lt_self (by omega) (by omega)
      have hmod : n % 10 < 10 := Nat.mod_lt _ (by omega)
      rw [charsToNat_append_char, ih _ hlt, digitChar_val hmod]
      omega

theorem natToChars_head_ne_zero {n : Nat} (h : 1 ≤ n) :
    (natToChars n).head? ≠ some '0' := by
  induction n using Nat.strong_induction_on with
  | _ n ih =>
    rw [natToChars_unfold]
    split
    · next h10 =>
      simpa using digitChar_ne_zeroChar h h10
    · next h10 =>
      have hlt : n / 10 < n := Nat.div_lt_self (by omega) (by omega)
      have hpos : 1 ≤ n / 10 := by omega
      rw [List.head?_append]
      rcases hh : (natToChars (n / 10)).head? with _ | c
      · exact absurd (List.head?_eq_none_iff.mp hh) (natToChars_ne_nil _)
      · simpa [hh] using ih _ hlt hpos

theorem validNumChars_natToChars (n : Nat) : validNumChars (natToChars n) = true := by
  simp only [validNumChars, Bool.and_eq_true, Bool.or_eq_true]
  refine ⟨⟨by simpa using natToChars_ne_nil n, natToChars_all_dig n⟩, ?_⟩
  by_cases h : 1 ≤ n
  · right
    simpa using natToChars_head_ne_zero h
  · left
    have : n = 0 := by omega
    subst this
    have h0 : natToChars 0 = ['0'] := rfl
    simp [h0]

theorem charsToNat_head_pos {c : Char} {l : List Char}
    (hd : isDig c = true) (hz : c ≠ '0') : 1 ≤ charsToNat (c :: l) := by
  have hc : 49 ≤ c.toNat ∧ c.toNat ≤ 57 := by
    obtain ⟨h1, h2⟩ := isDig_toNat hd
    rcases Nat.lt_or_ge 48 c.toNat with h | h
    · omega
    · exfalso
      have : c.toNat = 48 := by omega
      exact hz (char_eq_of_toNat_eq (by simpa using this))
  have aux : ∀ (t : List Char) (a : Nat), 1 ≤ a → 1 ≤ t.foldl (fun x d => x * 10 + (d.toNat - 48)) a := by
    intro t
    induction t with
    | nil => intro a ha; simpa using ha
    | cons d t iht =>
      intro a ha
      simp only [List.foldl_cons]
      exact iht _ (by omega)
  have : charsToNat (c :: l) = l.foldl (fun x d => x * 10 + (d.toNat - 48)) (c.toNat - 48) := by
    simp [charsToNat]
  rw [this]
  exact aux _ _ (by omega)

theorem natToChars_charsToNat : ∀ (l : List Char), l ≠ [] → l.all isDig = true →
    (l.length = 1 ∨ l.head? ≠ some '0') → natToChars (charsToNat l) = l := by
  intro l
  induction l using List.reverseRecOn with
  | nil => intro h; exact absurd rfl h
  | append_singleton as a ih =>
    intro _ hdig hcanon
    have hadig : isDig a = true := by
      have := hdig
      simp only [List.all_append, Bool.and_eq_true] at this
      simpa using this.2
    have hav : a.toNat - 48 < 10 := by
      obtain ⟨h1, h2⟩ := isDig_toNat hadig
      omega
    rcases as with _ | ⟨c, cs⟩
    · simp only [List.nil_append]
      have hval : charsToNat [a] = a.toNat - 48 := by simp [charsToNat]
      rw [hval, natToChars_unfold, if_pos hav, digitChar_of_isDig hadig]
    · have hcasdig : (c :: cs).all isDig = true := by
        have := hdig
        simp only [List.all_append, Bool.and_eq_true] at this
        exact this.1
      have hcz : c ≠ '0' := by
        rcases hcanon with hlen | hhead
        · exfalso
          simp at hlen
        · intro hc
          subst hc
          simp at hhead
      have hcdig : isDig c = true := by
        simp only [List.all_cons, Bool.and_eq_true] at hcasdig
        exact hcasdig.1
      have hpos : 1 ≤ charsToNat (c :: cs) := charsToNat_head_pos hcdig hcz
      rw [charsToNat_append_char]
      have hge : 10 ≤ 10 * charsToNat (c :: cs) + (a.toNat - 48) := by omega
      rw [natToChars_unfold]
      rw [if_neg (by omega)]
      have hdiv : (10 * charsToNat (c :: cs) + (a.toNat - 48)) / 10 = charsToNat (c :: cs) := by
        omega
      have hmod : (10 * charsToNat (c :: cs) + (a.toNat - 48)) % 10 = a.toNat - 48 := by
        omega
      rw [hdiv, hmod, digitChar_of_isDig hadig]
      rw [ih (by simp) hcasdig (Or.inr (by simpa using hcz))]

/-! ## Character-class consequences -/

theorem identChar_toNat {c : Char} (h : isIdentChar c = true) :
    (48 ≤ c.toNat ∧ c.toNat ≤ 57) ∨ (65 ≤ c.toNat ∧ c.toNat ≤ 90) ∨
      (97 ≤ c.toNat ∧ c.toNat ≤ 122) ∨ c = '-' := by
  simp only [isIdentChar, isDig, isAlphaC, Bool.or_eq_true, decide_eq_true_eq, beq_iff_eq] at h
  tauto

theorem identChar_ne {c : Char} (h : isIdentChar c = true) :
    c ≠ '+' ∧ c ≠ '@' ∧ c ≠ '\n' := by
  have hr := identChar_toNat h
  refine ⟨?_, ?_, ?_⟩ <;> intro hc <;> subst hc <;> revert hr <;> decide

theorem isDig_ne {c : Char} (h : isDig c = true) :
    c ≠ '.' ∧ c ≠ '-' ∧ c ≠ '+' ∧ c ≠ '@' ∧ c ≠ '\n' ∧ c ≠ 'v' ∧ c ≠ 'V' := by
  refine ⟨?_, ?_, ?_, ?_, ?_, ?_, ?_⟩ <;> intro hc <;> subst hc <;> revert h <;> decide

theorem mem_natToChars_isDig {c : Char} {n : Nat} (h : c ∈ natToChars n) : isDig c = true := by
  have := natToChars_all_dig n
  rw [List.all_eq_true] at this
  exact this c h

/-! ## Splitting lemmas -/

theorem splitFirst_not_mem {c : Char} : ∀ {l : List Char}, c ∉ l → splitFirst c l = (l, none) := by
  intro l
  induction l with
  | nil => intro; rfl
  | cons a rest ih =>
    intro h
    have ha : a ≠ c := fun hac => h (hac ▸ List.mem_cons_self a rest)
    have hr : c ∉ rest := fun hc => h (List.mem_cons_of_mem a hc)
    simp only [splitFirst, beq_iff_eq, if_neg ha, ih hr]

theorem splitFirst_append {c : Char} : ∀ {a : List Char} {b : List Char}, c ∉ a →
    splitFirst c (a ++ c :: b) = (a, some b) := by
  intro a
  induction a with
  | nil => intro b _; simp [splitFirst]
  | cons x xs ih =>
    intro b h
    have hx : x ≠ c := fun hxc => h (hxc ▸ List.mem_cons_self x xs)
    have hr : c ∉ xs := fun hc => h (List.mem_cons_of_mem x hc)
    simp only [List.cons_append, splitFirst, beq_iff_eq, if_neg hx, List.append_eq, ih hr]

theorem splitOnChar_ne_nil (sep : Char) : ∀ l : List Char, splitOnChar sep l ≠ [] := by
  intro l
  induction l with
  | nil => simp [splitOnChar]
  | cons c rest ih =>
    simp only [splitOnChar]
    split
    · simp
    · rcases h : splitOnChar sep rest with _ | ⟨p, ps⟩
      · exact absurd h ih
      · simp

theorem splitOnChar_not_mem {sep : Char} : ∀ {l : List Char}, sep ∉ l →
    splitOnChar sep l = [l] := by
  intro l
  induction l with
  | nil => intro; rfl
  | cons c rest ih =>
    intro h
    have hc : c ≠ sep := fun hcs => h (hcs ▸ List.mem_cons_self c rest)
    have hr : sep ∉ rest := fun hs => h (List.mem_cons_of_mem c hs)
    simp only [splitOnChar, beq_iff_eq, if_neg hc, ih hr]

theorem splitOnChar_append {sep : Char} : ∀ {a r : List Char}, sep ∉ a →
    splitOnChar sep (a ++ sep :: r) = a :: splitOnChar sep r := by
  intro a
  induction a with
  | nil => intro r _; simp [splitOnChar]
  | cons x xs ih =>
    intro r h
    have hx : x ≠ sep := fun hxc => h (hxc ▸ List.mem_cons_self x xs)
    have hr : sep ∉ xs := fun hc => h (List.mem_cons_of_mem x hc)
    simp only [List.cons_append, splitOnChar, beq_iff_eq, if_neg hx, List.append_eq, ih hr]

theorem joinDot_splitOnChar : ∀ l : List Char, joinDot (splitOnChar '.' l) = l := by
  intro l
  induction l with
  | nil => rfl
  | cons c rest ih =>
    rcases h : splitOnChar '.' rest with _ | ⟨p, ps⟩
    · exact absurd h (splitOnChar_ne_nil _ _)
    · rw [h] at ih
      simp only [splitOnChar, h]
      split
      · next hc =>
        have hc' : c = '.' := by simpa using hc
        subst hc'
        simp only [joinDot, List.nil_append]
        rw [ih]
      · next hc =>
        rcases ps with _ | ⟨q, qs⟩
        · simp only [joinDot] at ih ⊢
          rw [ih]
        · simp only [joinDot] at ih ⊢
          rw [List.cons_append, ih]

theorem mem_joinDot {c : Char} : ∀ {ps : List (List Char)}, c ∈ joinDot ps →
    c = '.' ∨ ∃ p ∈ ps, c ∈ p := by
  intro ps
  induction ps with
  | nil => intro h; simp [joinDot] at h
  | cons p ps ih =>
    intro h
    rcases ps with _ | ⟨q, qs⟩
    · exact Or.inr ⟨p, List.mem_cons_self _ _, h⟩
    · simp only [joinDot, List.mem_append, List.mem_cons] at h
      rcases h with h | h | h
      · exact Or.inr ⟨p, List.mem_cons_self _ _, h⟩
      · exact Or.inl h
      · rcases ih h with h2 | ⟨x, hx, hcx⟩
        · exact Or.inl h2
        · exact Or.inr ⟨x, List.mem_cons_of_mem _ hx, hcx⟩

theorem validPre_chars {p : List Char} (h : validPre p = true) :
    ∀ c ∈ p, isIdentChar c = true ∨ c = '.' := by
  intro c hc
  rw [← joinDot_splitOnChar p] at hc
  rcases mem_joinDot hc with h2 | ⟨x, hx, hcx⟩
  · exact Or.inr h2
  · left
    rw [validPre, List.all_eq_true] at h
    have := h x hx
    rw [validPreIdent, Bool.and_eq_true, Bool.and_eq_true] at this
    rw [List.all_eq_true] at this
    exact this.1.2 c hcx

theorem validBuild_chars {b : List Char} (h : validBuild b = true) :
    ∀ c ∈ b, isIdentChar c = true ∨ c = '.' := by
  intro c hc
  rw [← joinDot_splitOnChar b] at hc
  rcases mem_joinDot hc with h2 | ⟨x, hx, hcx⟩
  · exact Or.inr h2
  · left
    rw [validBuild, List.all_eq_true] at h
    have := h x hx
    rw [validBuildIdent, Bool.and_eq_true] at this
    rw [List.all_eq_true] at this
    exact this.2 c hcx

/-! ## Render/decode round trip -/

theorem dot_not_mem_natToChars (n : Nat) : '.' ∉ natToChars n :=
  fun hx => (isDig_ne (mem_natToChars_isDig hx)).1 rfl

theorem mem_renderTriple {c : Char} {ma mi pa : Nat} (h : c ∈ renderTriple ma mi pa) :
    isDig c = true ∨ c = '.' := by
  simp only [renderTriple, List.mem_append, List.mem_cons] at h
  have h1 := @mem_natToChars_isDig c ma
  have h2 := @mem_natToChars_isDig c mi
  have h3 := @mem_natToChars_isDig c pa
  tauto

theorem plus_not_mem_renderTriple {ma mi pa : Nat} : '+' ∉ renderTriple ma mi pa := by
  intro hx
  rcases mem_renderTriple hx with h | h
  · exact absurd h (by decide)
  · exact absurd h (by decide)

theorem dash_not_mem_renderTriple {ma mi pa : Nat} : '-' ∉ renderTriple ma mi pa := by
  intro hx
  rcases mem_renderTriple hx with h | h
  · exact absurd h (by decide)
  · exact absurd h (by decide)

theorem plus_not_mem_pre {p : List Char} (hp : validPre p = true) : '+' ∉ '-' :: p := by
  intro hx
  rcases List.mem_cons.mp hx with h | h
  · exact absurd h (by decide)
  · rcases validPre_chars hp _ h with h2 | h2
    · exact (identChar_ne h2).1 rfl
    · exact absurd h2 (by decide)

theorem splitOnChar_renderTriple (ma mi pa : Nat) :
    splitOnChar '.' (renderTriple ma mi pa) =
      [natToChars ma, natToChars mi, natToChars pa] := by
  have hshape : renderTriple ma mi pa =
      natToChars ma ++ '.' :: (natToChars mi ++ '.' :: natToChars pa) := by
    simp [renderTriple]
  rw [hshape, splitOnChar_append (dot_not_mem_natToChars ma),
    splitOnChar_append (dot_not_mem_natToChars mi),
    splitOnChar_not_mem (dot_not_mem_natToChars pa)]

theorem semverDecode_render {v : VersionCore} (h : wellformedCore v = true) (b : Bool) :
    semverDecode b (renderCore v) = some v := by
  obtain ⟨ma, mi, pa, pre, bld⟩ := v
  rw [wellformedCore] at h
  simp only [Bool.and_eq_true] at h
  obtain ⟨hpre, hbld⟩ := h
  have hnum : ∀ n : Nat, validNumChars (natToChars n) = true := validNumChars_natToChars
  have hval : ∀ n : Nat, charsToNat (natToChars n) = n := charsToNat_natToChars
  rcases pre with _ | p <;> rcases bld with _ | bl
  · have hshape : renderCore ⟨ma, mi, pa, none, none⟩ = renderTriple ma mi pa := by
      simp [renderCore, renderTriple]
    rw [hshape]
    simp only [semverDecode, splitFirst_not_mem plus_not_mem_renderTriple,
      splitFirst_not_mem dash_not_mem_renderTriple, splitOnChar_renderTriple]
    simp [hnum, hval]
  · have hshape : renderCore ⟨ma, mi, pa, none, some bl⟩ =
        renderTriple ma mi pa ++ '+' :: bl := by
      simp [renderCore, renderTriple]
    rw [hshape]
    simp only [semverDecode, splitFirst_append plus_not_mem_renderTriple,
      splitFirst_not_mem dash_not_mem_renderTriple, splitOnChar_renderTriple]
    simp at hbld
    simp [hnum, hval, hbld]
  · have hshape : renderCore ⟨ma, mi, pa, some p, none⟩ =
        renderTriple ma mi pa ++ '-' :: p := by
      simp [renderCore, renderTriple]
    rw [hshape]
    simp at hpre
    have hplus : '+' ∉ renderTriple ma mi pa ++ '-' :: p := by
      intro hx
      rcases List.mem_append.mp hx with h | h
      · exact plus_not_mem_renderTriple h
      · exact plus_not_mem_pre hpre h
    simp only [semverDecode, splitFirst_not_mem hplus,
      splitFirst_append dash_not_mem_renderTriple, splitOnChar_renderTriple]
    simp [hnum, hval, hpre]
  · have hshape : renderCore ⟨ma, mi, pa, some p, some bl⟩ =
        (renderTriple ma mi pa ++ '-' :: p) ++ '+' :: bl := by
      simp [renderCore, renderTriple]
    rw [hshape]
    simp at hpre hbld
    have hplus : '+' ∉ renderTriple ma mi pa ++ '-' :: p := by
      intro hx
      rcases List.mem_append.mp hx with h | h
      · exact plus_not_mem_renderTriple h
      · exact plus_not_mem_pre hpre h
    simp only [semverDecode, splitFirst_append hplus,
      splitFirst_append dash_not_mem_renderTriple, splitOnChar_renderTriple]
    simp [hnum, hval, hpre, hbld]

/-! ## Wellformedness of decoder outputs -/

theorem semverDecode_wf {b : Bool} {s : List Char} {v : VersionCore}
    (h : semverDecode b s = some v) : wellformedCore v = true := by
  rw [semverDecode] at h
  split at h
  · next hok =>
    rw [Bool.and_eq_true] at hok
    split at h
    · split at h
      · injection h with h
        subst h
        rw [wellformedCore]
        simp only [Bool.and_eq_true]
        exact ⟨hok.2, hok.1⟩
      · exact absurd h (by simp)
    · split at h
      · injection h with h
        subst h
        rw [wellformedCore]
        simp only [Bool.and_eq_true]
        exact ⟨hok.2, hok.1⟩
      · exact absurd h (by simp)
    · split at h
      · injection h with h
        subst h
        rw [wellformedCore]
        simp only [Bool.and_eq_true]
        exact ⟨hok.2, hok.1⟩
      · exact absurd h (by simp)
    · exact absurd h (by simp)
  · exact absurd h (by simp)

theorem matchKw_mem : ∀ {kws : List (List Char)} {s kw r : List Char},
    matchKw kws s = some (kw, r) → kw ∈ kws := by
  intro kws
  induction kws with
  | nil => intro s kw r h; exact absurd h (by simp [matchKw])
  | cons k ks ih =>
    intro s kw r h
    rw [matchKw] at h
    split at h
    · injection h with h
      injection h with h1 h2
      exact h1 ▸ List.mem_cons_self _ _
    · exact List.mem_cons_of_mem _ (ih h)

theorem normPreL_cases {kw : List Char} (h : kw ∈ preKws) :
    normPreL kw = "a".data ∨ normPreL kw = "b".data ∨ normPreL kw = "rc".data := by
  fin_cases h <;> decide

theorem parsePre_letter {s : List Char} {o : Option (List Char × Nat)} {r : List Char}
    (h : parsePre s = (o, r)) {l : List Char} {n : Nat} (ho : o = some (l, n)) :
    l = "a".data ∨ l = "b".data ∨ l = "rc".data := by
  subst ho
  rw [parsePre] at h
  split at h
  · next kw r1 hkw =>
    have hmem := matchKw_mem hkw
    rcases ht : takeNum (dropSep r1) with _ | ⟨nn, r3⟩ <;>
      simp only [ht, Prod.mk.injEq, Option.some.injEq] at h <;>
      obtain ⟨⟨hl, _⟩, _⟩ := h <;>
      exact hl ▸ normPreL_cases hmem
  · simp at h

theorem pypiParse_pre {s : List Char} {pv : PyVersion} (h : pypiParse s = some pv) :
    ∀ l n, pv.pre = some (l, n) → l = "a".data ∨ l = "b".data ∨ l = "rc".data := by
  rw [pypiParse] at h
  rcases hrel : parseRel (parseEpoch (stripV ((trimWS s).map lowerC))).2 with _ | ⟨rel, s4⟩ <;>
    simp only [hrel] at h
  · exact absurd h (by simp)
  · split at h
    · injection h with h
      subst h
      intro l n hpre
      rcases hp : parsePre s4 with ⟨o, rr⟩
      rw [hp] at hpre
      exact parsePre_letter hp hpre
    · exact absurd h (by simp)

theorem all_isIdentChar_natToChars (n : Nat) : (natToChars n).all isIdentChar = true := by
  rw [List.all_eq_true]
  intro c hc
  simp [isIdentChar, mem_natToChars_isDig hc]

theorem validPreIdent_natToChars (n : Nat) : validPreIdent (natToChars n) = true := by
  have h := validNumChars_natToChars n
  rw [validNumChars, Bool.and_eq_true, Bool.and_eq_true] at h
  rw [validPreIdent]
  simp only [Bool.and_eq_true]
  refine ⟨⟨h.1.1, all_isIdentChar_natToChars n⟩, ?_⟩
  rw [if_pos h.1.2]
  exact h.2

theorem validBuildIdent_append_num {w : List Char} (hw : w.all isIdentChar = true)
    (hne : w ≠ []) (m : Nat) : validBuildIdent (w ++ natToChars m) = true := by
  rw [validBuildIdent]
  simp only [Bool.and_eq_true]
  constructor
  · simp [hne]
  · rw [List.all_append]
    simp [hw, all_isIdentChar_natToChars m]

theorem validBuildIdent_natToChars (m : Nat) : validBuildIdent (natToChars m) = true := by
  rw [validBuildIdent]
  simp only [Bool.and_eq_true]
  exact ⟨by simpa using natToChars_ne_nil m, all_isIdentChar_natToChars m⟩

theorem validPre_word_num (w : List Char) (hw : '.' ∉ w) (hwv : validPreIdent w = true)
    (n : Nat) : validPre (w ++ '.' :: natToChars n) = true := by
  rw [validPre, splitOnChar_append hw, splitOnChar_not_mem (dot_not_mem_natToChars n)]
  simp [hwv, validPreIdent_natToChars]

theorem convertPypi_wf {pv : PyVersion}
    (hl : ∀ l n, pv.pre = some (l, n) → l = "a".data ∨ l = "b".data ∨ l = "rc".data) :
    wellformedCore (convertPypi pv) = true := by
  rw [convertPypi, wellformedCore]
  simp only [Bool.and_eq_true]
  constructor
  · rcases hpre : pv.pre with _ | ⟨l, n⟩
    · simp [hpre]
    · rcases hl l n hpre with rfl | rfl | rfl
      · have hval := validPre_word_num "alpha".data (by decide) (by decide) n
        simp only [hpre]
        exact hval
      · have hval := validPre_word_num "beta".data (by decide) (by decide) n
        simp only [hpre]
        exact hval
      · have hval := validPre_word_num "rc".data (by decide) (by decide) n
        simp only [hpre]
        exact hval
  · have hpostval : validBuild ("post".data ++ '.' :: natToChars (pv.post.getD 0)) = true := by
      rw [validBuild, splitOnChar_append (by decide),
        splitOnChar_not_mem (dot_not_mem_natToChars _)]
      simp only [List.all_cons, List.all_nil, Bool.and_eq_true]
      exact ⟨by decide, validBuildIdent_natToChars _, trivial⟩
    have hdevval : validBuild ("dev".data ++ '.' :: natToChars (pv.dev.getD 0)) = true := by
      rw [validBuild, splitOnChar_append (by decide),
        splitOnChar_not_mem (dot_not_mem_natToChars _)]
      simp only [List.all_cons, List.all_nil, Bool.and_eq_true]
      exact ⟨by decide, validBuildIdent_natToChars _, trivial⟩
    have hbothval : validBuild ("dev".data ++ '.' :: (natToChars (pv.dev.getD 0)
        ++ '.' :: ("post".data ++ natToChars (pv.post.getD 0)))) = true := by
      rw [validBuild, splitOnChar_append (by decide),
        splitOnChar_append (dot_not_mem_natToChars _)]
      have hdot3 : '.' ∉ "post".data ++ natToChars (pv.post.getD 0) := by
        intro hx
        rcases List.mem_append.mp hx with hx | hx
        · revert hx; decide
        · exact dot_not_mem_natToChars _ hx
      rw [splitOnChar_not_mem hdot3]
      simp only [List.all_cons, List.all_nil, Bool.and_eq_true]
      exact ⟨by decide, validBuildIdent_natToChars _,
        validBuildIdent_append_num (by decide) (by decide) _, trivial⟩
    rcases hdev : pyTruthy pv.dev with _ | _ <;> rcases hpost : pyTruthy pv.post with _ | _ <;>
      simp only [hdev, hpost, Bool.false_eq_true, ite_false, ite_true]
    · exact hpostval
    · exact hdevval
    · simpa using hbothval

theorem parseL_wf {s : List Char} {r : SemanticVersion} (h : parseL s = some r) :
    wellformedCore r.core = true := by
  rw [parseL] at h
  split at h
  · next c hc =>
    injection h with h
    subst h
    exact semverDecode_wf hc
  · split at h
    · next c hc =>
      injection h with h
      subst h
      rw [pypiDecode, Option.map_eq_some'] at hc
      obtain ⟨pv, hpv, hcv⟩ := hc
      subst hcv
      exact convertPypi_wf (pypiParse_pre hpv)
    · split at h
      · next c hc =>
        injection h with h
        subst h
        exact semverDecode_wf hc
      · exact absurd h (by simp)

/-! ## Re-parsing a canonical rendering -/

theorem lastAtV_none : ∀ (l : List Char), '@' ∉ l → lastAtV l = none := by
  intro l
  induction l with
  | nil => intro; rfl
  | cons a rest ih =>
    intro h
    rcases rest with _ | ⟨b, rs⟩
    · rfl
    · rw [lastAtV]
      rw [ih (fun hb => h (List.mem_cons_of_mem _ hb))]
      have ha : a ≠ '@' := fun hc => h (hc ▸ List.mem_cons_self _ _)
      simp [ha]

theorem takeWhile_all_eq {α : Type} {p : α → Bool} : ∀ {l : List α},
    (∀ x ∈ l, p x = true) → l.takeWhile p = l := by
  intro l
  induction l with
  | nil => intro; rfl
  | cons a rest ih =>
    intro h
    rw [List.takeWhile_cons, h a (List.mem_cons_self _ _), if_pos rfl,
      ih (fun x hx => h x (List.mem_cons_of_mem _ hx))]

theorem mem_renderCore {v : VersionCore} (hwf : wellformedCore v = true) {c : Char}
    (h : c ∈ renderCore v) : isIdentChar c = true ∨ c = '.' ∨ c = '+' := by
  obtain ⟨ma, mi, pa, pre, bld⟩ := v
  rw [wellformedCore] at hwf
  simp only [Bool.and_eq_true] at hwf
  obtain ⟨hpre, hbld⟩ := hwf
  have hdecomp : renderCore ⟨ma, mi, pa, pre, bld⟩ =
      renderTriple ma mi pa
        ++ ((match pre with | none => [] | some p => '-' :: p)
        ++ (match bld with | none => [] | some b => '+' :: b)) := by
    rcases pre with _ | p <;> rcases bld with _ | bl <;> simp [renderCore, renderTriple]
  rw [hdecomp] at h
  rcases List.mem_append.mp h with h | h
  · rcases mem_renderTriple h with h2 | h2
    · exact Or.inl (by simp [isIdentChar, h2])
    · exact Or.inr (Or.inl h2)
  · rcases List.mem_append.mp h with h | h
    · rcases pre with _ | p
      · simp at h
      · rcases List.mem_cons.mp h with h2 | h2
        · exact Or.inl (by simp [isIdentChar, h2])
        · simp only at hpre
          rcases validPre_chars hpre _ h2 with h3 | h3
          · exact Or.inl h3
          · exact Or.inr (Or.inl h3)
    · rcases bld with _ | bl
      · simp at h
      · rcases List.mem_cons.mp h with h2 | h2
        · exact Or.inr (Or.inr h2)
        · simp only at hbld
          rcases validBuild_chars hbld _ h2 with h3 | h3
          · exact Or.inl h3
          · exact Or.inr (Or.inl h3)

theorem renderCore_no_newline {v : VersionCore} (hwf : wellformedCore v = true) :
    ∀ c ∈ renderCore v, (c != '\n') = true := by
  intro c hc
  rcases mem_renderCore hwf hc with h | h | h
  · simpa using (identChar_ne h).2.2
  · subst h; decide
  · subst h; decide

theorem renderCore_no_at {v : VersionCore} (hwf : wellformedCore v = true) :
    '@' ∉ renderCore v := by
  intro hc
  rcases mem_renderCore hwf hc with h | h | h
  · exact (identChar_ne h).2.1 rfl
  · exact absurd h (by decide)
  · exact absurd h (by decide)

theorem renderCore_head {v : VersionCore} :
    ∃ d rest, renderCore v = d :: rest ∧ isDig d = true := by
  rcases hm : natToChars v.major with _ | ⟨d, ds⟩
  · exact absurd hm (natToChars_ne_nil _)
  · refine ⟨d, ds ++ '.' :: natToChars v.minor ++ '.' :: natToChars v.patch
      ++ (match v.prerelease with | none => [] | some p => '-' :: p)
      ++ (match v.build with | none => [] | some b => '+' :: b), ?_, ?_⟩
    · rw [renderCore, hm]
      simp
    · exact mem_natToChars_isDig (hm ▸ List.mem_cons_self d ds)

theorem stripPfx_render {v : VersionCore} (hwf : wellformedCore v = true) :
    stripPfx (renderCore v) = ([], renderCore v) := by
  obtain ⟨d, rest, hdr, hd⟩ := @renderCore_head v
  have htake : (renderCore v).takeWhile (fun c => c != '\n') = renderCore v :=
    takeWhile_all_eq (renderCore_no_newline hwf)
  have hv : d ≠ 'v' := (isDig_ne hd).2.2.2.2.2.1
  have hV : d ≠ 'V' := (isDig_ne hd).2.2.2.2.2.2
  simp only [stripPfx, htake, lastAtV_none _ (renderCore_no_at hwf)]
  rw [hdr]
  simp [hv, hV]

theorem parseL_render {v : VersionCore} (hwf : wellformedCore v = true) :
    parseL (renderCore v) = some ⟨v, renderCore v, [], VersionFormat.SEMVER⟩ := by
  rw [parseL]
  simp only [stripPfx_render hwf, semverDecode_render hwf]

/-! ## Comparison lemmas -/

theorem cmpN_zero_iff {a b : Nat} : cmpN a b = 0 ↔ a = b := by
  rw [cmpN]
  split_ifs with h1 h2
  · exact ⟨fun h3 => absurd h3 (by decide), fun h3 => by omega⟩
  · exact ⟨fun h3 => absurd h3 (by decide), fun h3 => by omega⟩
  · exact ⟨fun _ => by omega, fun _ => rfl⟩

theorem cmpN_self (a : Nat) : cmpN a a = 0 := cmpN_zero_iff.mpr rfl

theorem cmpLex_eq_zero : ∀ {a b : List Char}, cmpLex a b = 0 → a = b := by
  intro a
  induction a with
  | nil =>
    intro b h
    cases b with
    | nil => rfl
    | cons y ys => simp [cmpLex] at h
  | cons x xs ih =>
    intro b h
    cases b with
    | nil => simp [cmpLex] at h
    | cons y ys =>
      rw [cmpLex] at h
      split_ifs at h with h1 h2
      · exact absurd h (by decide)
      · have hxy : x = y := char_eq_of_toNat_eq (by omega)
        rw [hxy, ih h]

theorem cmpLex_self : ∀ (a : List Char), cmpLex a a = 0 := by
  intro a
  induction a with
  | nil => rfl
  | cons x xs ih =>
    rw [cmpLex, if_neg (by omega), if_neg (by omega)]
    exact ih

theorem cmpTag_self (t : Sum Nat (List Char)) : cmpTag t t = 0 := by
  cases t with
  | inl n => exact cmpN_self n
  | inr l => exact cmpLex_self l

theorem firstNonzero_cons (x : Int) (l : List Int) :
    firstNonzero (x :: l) = if x = 0 then firstNonzero l else x := by
  by_cases h : x = 0
  · subst h
    simp [firstNonzero, List.find?_cons]
  · simp [firstNonzero, List.find?_cons, h]

theorem firstNonzero_zip_self {α : Type} (g : α → α → Int) (hg : ∀ x, g x x = 0) :
    ∀ l : List α, firstNonzero (List.zipWith g l l) = 0 := by
  intro l
  induction l with
  | nil => rfl
  | cons x xs ih =>
    rw [List.zipWith_cons_cons, firstNonzero_cons, if_pos (hg x), ih]

theorem natCmp_self (a : List Char) : natCmp a a = 0 := by
  rw [natCmp]
  rw [firstNonzero_zip_self _ (fun x => cmpTag_self (convertPart x)) _]
  simp [cmpN_self]

theorem validPreIdent_canonical {a : List Char} (ha : validPreIdent a = true)
    (hd : (!a.isEmpty && a.all isDig) = true) :
    a ≠ [] ∧ a.all isDig = true ∧ (a.length = 1 ∨ a.head? ≠ some '0') := by
  rw [validPreIdent] at ha
  simp only [Bool.and_eq_true] at ha hd
  refine ⟨by simpa using hd.1, hd.2, ?_⟩
  rw [if_pos hd.2] at ha
  have := ha.2
  simp only [Bool.or_eq_true, beq_iff_eq, bne_iff_ne] at this
  rcases this with h | h
  · exact Or.inl h
  · exact Or.inr (by simpa using h)

theorem partEq {a b : List Char} (ha : validPreIdent a = true) (hb : validPreIdent b = true)
    (h : cmpTag (convertPart a) (convertPart b) = 0) : a = b := by
  rw [convertPart, convertPart] at h
  by_cases hda : (!a.isEmpty && a.all isDig) = true <;>
    by_cases hdb : (!b.isEmpty && b.all isDig) = true
  · rw [if_pos hda, if_pos hdb] at h
    rw [cmpTag] at h
    have hv : charsToNat a = charsToNat b := by
      rw [cmpN] at h
      split_ifs at h <;> omega
    obtain ⟨hne, hdig, hcan⟩ := validPreIdent_canonical ha hda
    obtain ⟨hne', hdig', hcan'⟩ := validPreIdent_canonical hb hdb
    rw [← natToChars_charsToNat a hne hdig hcan, ← natToChars_charsToNat b hne' hdig' hcan', hv]
  · rw [if_pos hda, if_neg hdb] at h
    simp [cmpTag] at h
  · rw [if_neg hda, if_pos hdb] at h
    simp [cmpTag] at h
  · rw [if_neg hda, if_neg hdb] at h
    rw [cmpTag] at h
    exact cmpLex_eq_zero h

theorem joinDot_cons_le (q : List Char) (qs : List (List Char)) :
    q.length ≤ (joinDot (q :: qs)).length := by
  cases qs with
  | nil => simp [joinDot]
  | cons q' qs' => simp [joinDot]

theorem validPreIdent_pos {a : List Char} (h : validPreIdent a = true) : 1 ≤ a.length := by
  rw [validPreIdent] at h
  simp only [Bool.and_eq_true] at h
  have := h.1.1
  cases a with
  | nil => simp at this
  | cons x xs => simp

theorem partsEq : ∀ (ps qs : List (List Char)),
    (∀ x ∈ ps, validPreIdent x = true) → (∀ x ∈ qs, validPreIdent x = true) →
    firstNonzero (List.zipWith (fun a b => cmpTag (convertPart a) (convertPart b)) ps qs) = 0 →
    (joinDot ps).length = (joinDot qs).length → ps = qs := by
  intro ps
  induction ps with
  | nil =>
    intro qs _ hq _ hlen
    cases qs with
    | nil => rfl
    | cons q qs' =>
      exfalso
      have h1 := joinDot_cons_le q qs'
      have h2 := validPreIdent_pos (hq q (List.mem_cons_self _ _))
      simp only [joinDot, List.length_nil] at hlen
      omega
  | cons p ps' ih =>
    intro qs hp hq hz hlen
    cases qs with
    | nil =>
      exfalso
      have h1 := joinDot_cons_le p ps'
      have h2 := validPreIdent_pos (hp p (List.mem_cons_self _ _))
      simp only [joinDot, List.length_nil] at hlen
      omega
    | cons q qs' =>
      rw [List.zipWith_cons_cons, firstNonzero_cons] at hz
      have hpq : p = q := by
        by_cases h0 : cmpTag (convertPart p) (convertPart q) = 0
        · exact partEq (hp p (List.mem_cons_self _ _)) (hq q (List.mem_cons_self _ _)) h0
        · rw [if_neg h0] at hz
          exact absurd hz h0
      subst hpq
      rw [if_pos (by
        by_cases h0 : cmpTag (convertPart p) (convertPart p) = 0
        · exact h0
        · rw [if_neg h0] at hz; exact absurd hz h0)] at hz
      cases ps' with
      | nil =>
        cases qs' with
        | nil => rfl
        | cons q' qs'' =>
          exfalso
          have h1 := joinDot_cons_le q' qs''
          have h2 := validPreIdent_pos (hq q' (List.mem_cons_of_mem _ (List.mem_cons_self _ _)))
          simp only [joinDot, List.length_append, List.length_cons] at hlen
          omega
      | cons p' ps'' =>
        cases qs' with
        | nil =>
          exfalso
          have h1 := joinDot_cons_le p' ps''
          have h2 := validPreIdent_pos (hp p' (List.mem_cons_of_mem _ (List.mem_cons_self _ _)))
          simp only [joinDot, List.length_append, List.length_cons] at hlen
          omega
        | cons q' qs'' =>
          have hlen2 : (joinDot (p' :: ps'')).length = (joinDot (q' :: qs'')).length := by
            simp only [joinDot, List.length_append, List.length_cons] at hlen
            omega
          have htail := ih (q' :: qs'')
            (fun x hx => hp x (List.mem_cons_of_mem _ hx))
            (fun x hx => hq x (List.mem_cons_of_mem _ hx)) hz hlen2
          rw [htail]

theorem validPre_parts {p : List Char} (hp : validPre p = true) :
    ∀ x ∈ splitOnChar '.' p, validPreIdent x = true := by
  rw [validPre, List.all_eq_true] at hp
  exact hp

theorem natCmp_eq {p q : List Char} (hp : validPre p = true) (hq : validPre q = true)
    (h : natCmp p q = 0) : p = q := by
  rw [natCmp] at h
  by_cases hz : firstNonzero (List.zipWith
      (fun x y => cmpTag (convertPart x) (convertPart y))
      (splitOnChar '.' p) (splitOnChar '.' q)) = 0
  · rw [if_pos hz] at h
    have hlen : p.length = q.length := cmpN_zero_iff.mp h
    have hlen2 : (joinDot (splitOnChar '.' p)).length = (joinDot (splitOnChar '.' q)).length := by
      rw [joinDot_splitOnChar, joinDot_splitOnChar, hlen]
    have := partsEq _ _ (validPre_parts hp) (validPre_parts hq) hz hlen2
    rw [← joinDot_splitOnChar p, ← joinDot_splitOnChar q, this]
  · rw [if_neg hz] at h
    exact absurd h hz

theorem convertPart_nil : convertPart [] = Sum.inr [] := rfl

theorem natCmp_nil_left {q : List Char} (hq : validPre q = true) : natCmp [] q ≠ 0 := by
  rcases hsq : splitOnChar '.' q with _ | ⟨q0, qrest⟩
  · exact absurd hsq (splitOnChar_ne_nil _ _)
  · have hq0 : validPreIdent q0 = true := validPre_parts hq q0 (hsq ▸ List.mem_cons_self _ _)
    have hq0ne : q0 ≠ [] := by
      intro h0
      have := validPreIdent_pos hq0
      simp [h0] at this
    rw [natCmp]
    have hnil : splitOnChar '.' ([] : List Char) = [[]] := rfl
    rw [hnil, hsq]
    rw [List.zipWith_cons_cons]
    have hzn : List.zipWith (fun x y => cmpTag (convertPart x) (convertPart y)) [] qrest = [] := by
      simp
    rw [hzn]
    have hfc : cmpTag (convertPart []) (convertPart q0) ≠ 0 := by
      rw [convertPart_nil, convertPart]
      split_ifs with hdq
      · rw [cmpTag]; omega
      · rcases q0 with _ | ⟨c, cs⟩
        · exact absurd rfl hq0ne
        · rw [cmpTag, cmpLex]; omega
    rw [firstNonzero_cons, if_neg hfc, if_neg hfc]
    exact hfc

theorem natCmp_nil_right {p : List Char} (hp : validPre p = true) : natCmp p [] ≠ 0 := by
  rcases hsp : splitOnChar '.' p with _ | ⟨p0, prest⟩
  · exact absurd hsp (splitOnChar_ne_nil _ _)
  · have hp0 : validPreIdent p0 = true := validPre_parts hp p0 (hsp ▸ List.mem_cons_self _ _)
    have hp0ne : p0 ≠ [] := by
      intro h0
      have := validPreIdent_pos hp0
      simp [h0] at this
    rw [natCmp]
    have hnil : splitOnChar '.' ([] : List Char) = [[]] := rfl
    rw [hnil, hsp]
    rw [List.zipWith_cons_cons]
    have hzn : List.zipWith (fun x y => cmpTag (convertPart x) (convertPart y)) prest [] = [] := by
      simp
    rw [hzn]
    have hfc : cmpTag (convertPart p0) (convertPart []) ≠ 0 := by
      rw [convertPart_nil, convertPart]
      split_ifs with hdp
      · rw [cmpTag]; omega
      · rcases p0 with _ | ⟨c, cs⟩
        · exact absurd rfl hp0ne
        · rw [cmpTag, cmpLex]; omega
    rw [firstNonzero_cons, if_neg hfc, if_neg hfc]
    exact hfc

theorem compareCore_fields_eq {x y : VersionCore} (h1 : x.major = y.major)
    (h2 : x.minor = y.minor) (h3 : x.patch = y.patch)
    (h4 : x.prerelease = y.prerelease) : compareCore x y = 0 := by
  simp [compareCore, h1, h2, h3, h4, cmpN_self, natCmp_self]

theorem wellformed_pre_valid {x : VersionCore} (hx : wellformedCore x = true)
    {p : List Char} (hp : x.prerelease = some p) : validPre p = true := by
  rw [wellformedCore, Bool.and_eq_true] at hx
  have := hx.1
  rw [hp] at this
  exact this

theorem compareCore_zero_fields {x y : VersionCore} (hx : wellformedCore x = true)
    (hy : wellformedCore y = true) (h : compareCore x y = 0) :
    x.major = y.major ∧ x.minor = y.minor ∧ x.patch = y.patch ∧
      x.prerelease = y.prerelease := by
  simp only [compareCore] at h
  by_cases e1 : cmpN x.major y.major ≠ 0
  · rw [if_pos e1] at h
    exact absurd h e1
  · rw [if_neg e1] at h
    by_cases e2 : cmpN x.minor y.minor ≠ 0
    · rw [if_pos e2] at h
      exact absurd h e2
    · rw [if_neg e2] at h
      by_cases e3 : cmpN x.patch y.patch ≠ 0
      · rw [if_pos e3] at h
        exact absurd h e3
      · rw [if_neg e3] at h
        by_cases e4 : natCmp (x.prerelease.getD []) (y.prerelease.getD []) = 0
        · refine ⟨cmpN_zero_iff.mp (not_not.mp e1), cmpN_zero_iff.mp (not_not.mp e2),
            cmpN_zero_iff.mp (not_not.mp e3), ?_⟩
          rcases hpx : x.prerelease with _ | p <;> rcases hpy : y.prerelease with _ | q
          · rfl
          · exfalso
            rw [hpx, hpy] at e4
            simp only [Option.getD_some, Option.getD_none] at e4
            exact natCmp_nil_left (wellformed_pre_valid hy hpy) e4
          · exfalso
            rw [hpx, hpy] at e4
            simp only [Option.getD_some, Option.getD_none] at e4
            exact natCmp_nil_right (wellformed_pre_valid hx hpx) e4
          · rw [hpx, hpy] at e4
            simp only [Option.getD_some] at e4
            rw [natCmp_eq (wellformed_pre_valid hx hpx) (wellformed_pre_valid hy hpy) e4]
        · rw [if_neg e4] at h
          split_ifs at h with e5
          · exact absurd h (by decide)
          · exact absurd h e4

/-! ## Predicate pipeline lemmas -/

theorem opSplitPred_cases {t : List Char} {op0 rest : List Char}
    (h : opSplitPred t = some (op0, rest)) :
    op0 = "!=".data ∨ op0 = "<=".data ∨ op0 = ">=".data ∨ op0 = "<".data ∨
      op0 = ">".data ∨ op0 = "==".data ∨ op0 = "=".data := by
  rcases t with _ | ⟨c1, _ | ⟨c2, ts⟩⟩
  · simp [opSplitPred] at h
  · rw [opSplitPred] at h
    split_ifs at h with h1 h2
    · simp only [Bool.or_eq_true, beq_iff_eq] at h1
      injection h with h
      injection h with h3 _
      rcases h1 with rfl | rfl
      · subst h3; decide
      · subst h3; decide
    · have h2' : c1 = '=' := by simpa using h2
      injection h with h
      injection h with h3 _
      subst h3
      subst h2'
      decide
  · rw [opSplitPred] at h
    split_ifs at h with h1 h2 h3 h4
    · simp only [Bool.or_eq_true, decide_eq_true_eq] at h1
      injection h with h
      injection h with h5 _
      rcases h1 with (he | he) | he <;> rw [← h5, he] <;> decide
    · simp only [Bool.or_eq_true, beq_iff_eq] at h2
      injection h with h
      injection h with h5 _
      rcases h2 with rfl | rfl
      · rw [← h5]; decide
      · rw [← h5]; decide
    · have h3' : [c1, c2] = "==".data := by simpa using h3
      injection h with h
      injection h with h5 _
      rw [← h5, h3']
      decide
    · injection h with h
      injection h with h5 _
      rw [← h5]
      decide

theorem fromStr_inv {s : String} {p : VersionPredicate} (h : fromStr s = some p) :
    p.operator ∈ sixOps ∧ ∃ v : SemanticVersion, wellformedCore v.core = true ∧
      p.version = renderCore v.core := by
  rw [fromStr] at h
  rcases hop : opSplitPred (trimWS s.data) with _ | ⟨op0, rest⟩ <;> simp only [hop] at h
  · exact absurd h (by simp)
  · rcases hpl : parseL ((rest.dropWhile isPyWS).takeWhile (fun c => c != '\n'))
      with _ | v <;> simp only [hpl] at h
    · exact absurd h (by simp)
    · injection h with h
      subst h
      constructor
      · rcases opSplitPred_cases hop with rfl | rfl | rfl | rfl | rfl | rfl | rfl <;>
          simp [sixOps]
      · exact ⟨v, parseL_wf hpl, rfl⟩

theorem isDig_ne_eq {c : Char} (h : isDig c = true) : c ≠ '=' := by
  intro hc
  subst hc
  exact absurd h (by decide)

theorem matchExprSplit_op {op : List Char} (hop : op ∈ sixOps) {d : Char} (rs : List Char)
    (hd : isDig d = true) :
    matchExprSplit (op ++ d :: rs) = some (op, d :: rs) := by
  have hde := isDig_ne_eq hd
  fin_cases hop <;>
    simp [matchExprSplit, List.cons.injEq, hde, hd]

theorem matchesPredicate_eval {p : VersionPredicate} {pc : VersionCore}
    (hop : p.operator ∈ sixOps) {d : Char} {rs : List Char} (hver : p.version = d :: rs)
    (hd : isDig d = true) (hdec : semverDecode false p.version = some pc)
    (cand : SemanticVersion) :
    matchesPredicate cand p = some (possVal p.operator (compareCore cand.core pc)) := by
  simp only [matchesPredicate, matchExpr, strPred, hver, matchExprSplit_op hop rs hd]
  rw [← hver, hdec]

/-! ## Small model facts used by the claims -/

theorem strChars_eq (v : SemanticVersion) : strChars v = v.pfx ++ renderCore v.core := by
  rw [strChars]
  split
  · next h =>
    rw [List.isEmpty_iff.mp h]
    rfl
  · rfl

theorem parseL_fields {s : List Char} {r : SemanticVersion} (h : parseL s = some r) :
    r.original_version = s ∧ r.pfx = (stripPfx s).1 := by
  rw [parseL] at h
  split at h
  · next c hc =>
    injection h with h
    subst h
    exact ⟨rfl, rfl⟩
  · split at h
    · next c hc =>
      injection h with h
      subst h
      exact ⟨rfl, rfl⟩
    · split at h
      · next c hc =>
        injection h with h
        subst h
        exact ⟨rfl, rfl⟩
      · exact absurd h (by simp)

/-! ## Claims -/

/-- Claim C1, counterexample to the quoted concrete example: the predicate
built from `">=1.0.0a1"` stores the normalised version `1.0.0-alpha.1`, and
matching the parsed version `1.0.0` against it returns `true` (a final
release outranks its alpha under the Section 3 ordering), not `false` as
the claim states. -/
theorem claim1_cx :
    fromStr ">=1.0.0a1" =
      some ⟨">=".data, "1.0.0-alpha.1".data, VersionFormat.PYPI⟩ ∧
    parse "1.0.0" =
      some ⟨⟨1, 0, 0, none, none⟩, "1.0.0".data, [], VersionFormat.SEMVER⟩ ∧
    matchesPredicate ⟨⟨1, 0, 0, none, none⟩, "1.0.0".data, [], VersionFormat.SEMVER⟩
      ⟨">=".data, "1.0.0-alpha.1".data, VersionFormat.PYPI⟩ = some true ∧
    (some true ≠ (some false : Option Bool)) :=
  ⟨rfl, rfl, rfl, by decide⟩

/-- Claim C1 (amended): for every predicate built by `from_str`, `matches`
applies the operator of the predicate as the canonical-model comparison between
the candidate and the stored version under the Section 3 ordering; the
concrete instance `matches(parse("1.0.0"))` for `">=1.0.0a1"` is `true`. -/
theorem claim1_matches :
    (∀ (s : String) (p : VersionPredicate), fromStr s = some p →
      ∃ pc : VersionCore, semverDecode false p.version = some pc ∧
        ∀ cand : SemanticVersion,
          matchesPredicate cand p =
            some (possVal p.operator (compareCore cand.core pc))) ∧
    (∀ p, fromStr ">=1.0.0a1" = some p → ∀ v, parse "1.0.0" = some v →
      matchesPredicate v p = some true) := by
  constructor
  · intro s p hp
    obtain ⟨hop, w, hwf, hver⟩ := fromStr_inv hp
    obtain ⟨d, rest, hdr, hd⟩ := @renderCore_head w.core
    have hdec : semverDecode false p.version = some w.core := by
      rw [hver]
      exact semverDecode_render hwf false
    exact ⟨w.core, hdec, fun cand =>
      matchesPredicate_eval hop (hver.trans hdr) hd hdec cand⟩
  · intro p hp v hv
    have hp2 : some (⟨">=".data, "1.0.0-alpha.1".data,
        VersionFormat.PYPI⟩ : VersionPredicate) = some p := by
      rw [← hp]
      exact rfl
    have hv2 : some (⟨⟨1, 0, 0, none, none⟩, "1.0.0".data, [],
        VersionFormat.SEMVER⟩ : SemanticVersion) = some v := by
      rw [← hv]
      exact rfl
    obtain rfl := Option.some.inj hp2
    obtain rfl := Option.some.inj hv2
    rfl

/-- Witness for C1 at the inputs named by the claim. -/
theorem claim1_matches_wit :
    matchesPredicate ⟨⟨1, 0, 0, none, none⟩, "1.0.0".data, [], VersionFormat.SEMVER⟩
      ⟨">=".data, "1.0.0-alpha.1".data, VersionFormat.PYPI⟩ = some true :=
  claim1_matches.2 _ rfl _ rfl

/-- Claim C3, counterexample to format stability for `UNKNOWN`: the string
`"1.2.3.foo"` decodes through the legacy fallback as `UNKNOWN`, but the
re-parse of its `to_semver` rendering `"1.2.3-foo"` is accepted by the
semver decoder first and reports `SEMVER`. -/
theorem claim3_cx :
    parse "1.2.3.foo" = some ⟨⟨1, 2, 3, some "foo".data, none⟩,
      "1.2.3.foo".data, [], VersionFormat.UNKNOWN⟩ ∧
    parse (toSemver ⟨⟨1, 2, 3, some "foo".data, none⟩,
      "1.2.3.foo".data, [], VersionFormat.UNKNOWN⟩) =
      some ⟨⟨1, 2, 3, some "foo".data, none⟩, "1.2.3-foo".data, [],
        VersionFormat.SEMVER⟩ ∧
    VersionFormat.SEMVER ≠ VersionFormat.UNKNOWN :=
  ⟨rfl, rfl, by decide⟩

/-- Claim C3 (amended): for every string `parse` accepts, re-parsing the
`to_semver` rendering succeeds with the same canonical model (including
`build`, hence value equality ignoring build) and reports `SEMVER`; for
inputs detected as `SEMVER` this is exactly format- and value-stability,
while `UNKNOWN` inputs keep the value but re-parse as `SEMVER`. -/
theorem claim3_roundtrip :
    ∀ (s : String) (r : SemanticVersion), parse s = some r →
      parse (toSemver r) =
        some ⟨r.core, (toSemver r).data, [], VersionFormat.SEMVER⟩ := by
  intro s r h
  exact parseL_render (parseL_wf h)

/-- Witness for C3 at `"1.0.0"`. -/
theorem claim3_roundtrip_wit :
    parse (toSemver ⟨⟨1, 0, 0, none, none⟩, "1.0.0".data, [], VersionFormat.SEMVER⟩) =
      some ⟨⟨1, 0, 0, none, none⟩,
        (toSemver ⟨⟨1, 0, 0, none, none⟩, "1.0.0".data, [], VersionFormat.SEMVER⟩).data,
        [], VersionFormat.SEMVER⟩ :=
  claim3_roundtrip "1.0.0" _ rfl

theorem takeWhile_append_stop {α : Type} {p : α → Bool} :
    ∀ {a : List α} {c : α} {b : List α}, (∀ x ∈ a, p x = true) → p c = false →
      (a ++ c :: b).takeWhile p = a := by
  intro a
  induction a with
  | nil =>
    intro c b _ hc
    simp [List.takeWhile_cons, hc]
  | cons x xs ih =>
    intro c b h hc
    rw [List.cons_append, List.takeWhile_cons, h x (List.mem_cons_self _ _),
      if_pos rfl, ih (fun y hy => h y (List.mem_cons_of_mem _ hy)) hc]

theorem dropWhile_append_stop {α : Type} {p : α → Bool} :
    ∀ {a : List α} {c : α} {b : List α}, (∀ x ∈ a, p x = true) → p c = false →
      (a ++ c :: b).dropWhile p = c :: b := by
  intro a
  induction a with
  | nil =>
    intro c b _ hc
    simp [List.dropWhile_cons, hc]
  | cons x xs ih =>
    intro c b h hc
    rw [List.cons_append, List.dropWhile_cons]
    simp only [h x (List.mem_cons_self _ _), ite_true]
    exact ih (fun y hy => h y (List.mem_cons_of_mem _ hy)) hc

theorem isAlphaC_not_dig {c : Char} (h : isAlphaC c = true) : isDig c = false := by
  simp only [isAlphaC, decide_eq_true_eq] at h
  simp only [isDig, decide_eq_false_iff_not]
  omega

theorem tripleDecode_render (ma mi pa : Nat) :
    tripleDecode (renderTriple ma mi pa) = some (ma, mi, pa) := by
  rw [tripleDecode, splitOnChar_renderTriple]
  simp [validNumChars_natToChars, charsToNat_natToChars]

/-- Claim C2, counterexample to the general sentence read over the whole
parser: a suffix letter that PEP 440 recognises (here `a`) is captured by
the earlier `PYPI` decoder, which maps it to a prerelease, so the suffix is
not mapped verbatim into `build`. -/
theorem claim2_cx :
    parseSpec "1.2.3a1" = some ⟨⟨1, 2, 3, some "alpha.1".data, none⟩,
      "1.2.3a1".data, [], VersionFormat.PYPI⟩ ∧
    (some "alpha.1".data : Option (List Char)) ≠ some "a1".data :=
  ⟨rfl, by decide⟩

/-- Claim C2 (amended, spec-modelled): under the specified decoder chain,
`parse("4.25.14p12")` succeeds as `RUBYGEMS` with major 4, minor 25,
patch 14, build `p12` and renders as `4.25.14+p12`; in general the
`RUBYGEMS` decoder accepts a well-formed numeric triple followed directly
by a single-letter-plus-digits suffix and maps the suffix verbatim into
`build` (under the full parser this applies only when no earlier decoder
accepts the string, e.g. when the letter is not a PEP 440 spelling). -/
theorem claim2_rubygems :
    (parseSpec "4.25.14p12" = some ⟨⟨4, 25, 14, none, some "p12".data⟩,
        "4.25.14p12".data, [], VersionFormat.RUBYGEMS⟩ ∧
      strChars ⟨⟨4, 25, 14, none, some "p12".data⟩,
        "4.25.14p12".data, [], VersionFormat.RUBYGEMS⟩ = "4.25.14+p12".data) ∧
    (∀ (ma mi pa : Nat) (c : Char) (ds : List Char), isAlphaC c = true →
      ds ≠ [] → ds.all isDig = true →
      rubygemsDecode (renderTriple ma mi pa ++ c :: ds) =
        some ⟨ma, mi, pa, none, some (c :: ds)⟩) := by
  refine ⟨⟨rfl, rfl⟩, ?_⟩
  intro ma mi pa c ds hc hne hdig
  rw [rubygemsDecode]
  have hrev : (renderTriple ma mi pa ++ c :: ds).reverse =
      ds.reverse ++ c :: (renderTriple ma mi pa).reverse := by
    simp
  rw [hrev]
  have hdsrev : ∀ x ∈ ds.reverse, isDig x = true := by
    intro x hx
    rw [List.all_eq_true] at hdig
    exact hdig x (List.mem_reverse.mp hx)
  have hcd : isDig c = false := isAlphaC_not_dig hc
  rw [takeWhile_append_stop hdsrev hcd, dropWhile_append_stop hdsrev hcd]
  have hnemp : ds.reverse.isEmpty = false := by
    rcases hds : ds.reverse with _ | ⟨x, xs⟩
    · exact absurd (by simpa using hds) hne
    · rfl
  rw [hnemp]
  simp only [Bool.false_eq_true, ite_false, hc, ite_true, List.reverse_reverse,
    tripleDecode_render]

/-- Witness for C2's decoder-level property at a non-PEP 440 letter. -/
theorem claim2_rubygems_wit :
    rubygemsDecode "1.2.3q7".data = some ⟨1, 2, 3, none, some "q7".data⟩ :=
  claim2_rubygems.2 1 2 3 'q' "7".data (by decide) (by decide) (by decide)

/-- Claim C4, counterexample to the both-segments mapping: the PEP 440
string `"1.0.0.post2.dev3"` carries `dev 3` and `post 2`, and the code
produces build `dev.3.post2` (the post number appended as `.postN`), not
`dev.3.post.2` as the `post.M`-with-separator reading of the claim requires. -/
theorem claim4_cx :
    parse "1.0.0.post2.dev3" = some ⟨⟨1, 0, 0, none, some "dev.3.post2".data⟩,
      "1.0.0.post2.dev3".data, [], VersionFormat.PYPI⟩ ∧
    (some "dev.3.post2".data : Option (List Char)) ≠ some "dev.3.post.2".data :=
  ⟨rfl, by decide⟩

/-- Claim C4 (amended): for every accepted PEP 440 version, a nonzero dev
number maps to build `dev.N`; a nonzero post number maps to build `post.M`
when no (nonzero) dev is present and is appended as `.postM` after the dev
segment when both are present; a dev or post number of zero is treated as
absent (Python truthiness). -/
theorem claim4_devpost :
    ∀ (s : List Char) (pv : PyVersion), pypiParse s = some pv →
      (∀ n m, pv.dev = some n → 0 < n → pv.post = some m → 0 < m →
        (convertPypi pv).build =
          some ("dev.".data ++ natToChars n ++ ".post".data ++ natToChars m)) ∧
      (∀ n, pv.dev = some n → 0 < n → pv.post.getD 0 = 0 →
        (convertPypi pv).build = some ("dev.".data ++ natToChars n)) ∧
      (∀ m, pv.dev.getD 0 = 0 → pv.post = some m → 0 < m →
        (convertPypi pv).build = some ("post.".data ++ natToChars m)) := by
  intro s pv _
  refine ⟨?_, ?_, ?_⟩
  · intro n m hn hnpos hm hmpos
    have ht1 : pyTruthy (some n) = true := by
      simp only [pyTruthy, ne_eq, bne_iff_ne]
      omega
    have ht2 : pyTruthy (some m) = true := by
      simp only [pyTruthy, ne_eq, bne_iff_ne]
      omega
    simp only [convertPypi, hn, hm, Option.getD_some, ht1, ht2, ite_true]
  · intro n hn hnpos hp0
    have ht1 : pyTruthy (some n) = true := by
      simp only [pyTruthy, ne_eq, bne_iff_ne]
      omega
    have ht2 : pyTruthy pv.post = false := by
      rcases hm : pv.post with _ | m
      · rfl
      · rw [hm, Option.getD_some] at hp0
        subst hp0
        rfl
    simp only [convertPypi, hn, Option.getD_some, ht1, ht2, ite_true,
      Bool.false_eq_true, ite_false]
  · intro m hd0 hm hmpos
    have ht1 : pyTruthy pv.dev = false := by
      rcases hn : pv.dev with _ | n
      · rfl
      · rw [hn, Option.getD_some] at hd0
        subst hd0
        rfl
    have ht2 : pyTruthy (some m) = true := by
      simp only [pyTruthy, ne_eq, bne_iff_ne]
      omega
    simp only [convertPypi, hm, Option.getD_some, ht1, ht2, ite_true,
      Bool.false_eq_true, ite_false]

/-- Witness for C4 at the both-segments input `"1.0.0.post2.dev3"`. -/
theorem claim4_devpost_wit :
    (convertPypi ⟨0, [1, 0, 0], none, some 2, some 3, none⟩).build =
      some "dev.3.post2".data :=
  (claim4_devpost "1.0.0.post2.dev3".data ⟨0, [1, 0, 0], none, some 2, some 3, none⟩
    rfl).1 3 2 rfl (by decide) rfl (by decide)

/-- Claim C5, counterexample to the claimed prefix grammar: `"pkg@V1.0.0"`
begins with `pkg@V`, which the claimed pattern `(anything ending in
"@")?(v|V)` would strip, but the source regex `((?:.+@)?v|V)` only allows
the `@`-form before a lowercase `v`; nothing is stripped and the parse
fails instead of decoding `1.0.0`. -/
theorem claim5_cx :
    stripPfx "pkg@V1.0.0".data = ([], "pkg@V1.0.0".data) ∧
    parse "pkg@V1.0.0" = none :=
  ⟨rfl, rfl⟩

/-- Claim C5 (amended): the stripped prefix matches `(anything ending in
"@")?v | V` (lowercase `v` after an `@`-terminated run, or a bare leading
`v`/`V`); on success the prefix field is exactly what the regex stripped,
`installable_version` is the original string minus the prefix, and `str`
reapplies the prefix to the canonical rendering; concretely `pkg@v1.0.0`
strips `pkg@v`, and `v1.0.0` yields installable `1.0.0` and str `v1.0.0`. -/
theorem claim5_prefix :
    (∀ (s : String) (r : SemanticVersion), parse s = some r →
      r.pfx = (stripPfx s.data).1 ∧ r.original_version = s.data ∧
      installableChars r = s.data.drop r.pfx.length ∧
      strChars r = r.pfx ++ renderCore r.core) ∧
    (∀ r, parse "pkg@v1.0.0" = some r →
      r.pfx = "pkg@v".data ∧ installableChars r = "1.0.0".data) ∧
    (∀ r, parse "v1.0.0" = some r →
      installableChars r = "1.0.0".data ∧ strChars r = "v1.0.0".data) := by
  refine ⟨?_, ?_, ?_⟩
  · intro s r h
    obtain ⟨horig, hpfx⟩ := parseL_fields h
    refine ⟨hpfx, horig, ?_, strChars_eq r⟩
    rcases hs : s.data with _ | ⟨c, cs⟩
    · exfalso
      rw [parse, hs] at h
      have hnil : parseL ([] : List Char) = none := rfl
      rw [hnil] at h
      cases h
    · have hne : r.original_version.isEmpty = false := by
        rw [horig, hs]
        rfl
      rw [installableChars, hne]
      simp only [Bool.false_eq_true, ite_false]
      rw [horig, hs]
  · intro r h
    have h2 : some (⟨⟨1, 0, 0, none, none⟩, "pkg@v1.0.0".data, "pkg@v".data,
        VersionFormat.SEMVER⟩ : SemanticVersion) = some r := by
      rw [← h]
      exact rfl
    obtain rfl := Option.some.inj h2
    exact ⟨rfl, rfl⟩
  · intro r h
    have h2 : some (⟨⟨1, 0, 0, none, none⟩, "v1.0.0".data, "v".data,
        VersionFormat.SEMVER⟩ : SemanticVersion) = some r := by
      rw [← h]
      exact rfl
    obtain rfl := Option.some.inj h2
    exact ⟨rfl, rfl⟩

/-- Witness for C5 at `"v1.0.0"`. -/
theorem claim5_prefix_wit :
    installableChars ⟨⟨1, 0, 0, none, none⟩, "v1.0.0".data, "v".data,
      VersionFormat.SEMVER⟩ = "v1.0.0".data.drop ("v".data).length ∧
    strChars ⟨⟨1, 0, 0, none, none⟩, "v1.0.0".data, "v".data,
      VersionFormat.SEMVER⟩ = "v".data ++ renderCore ⟨1, 0, 0, none, none⟩ := by
  have h := claim5_prefix.1 "v1.0.0"
    ⟨⟨1, 0, 0, none, none⟩, "v1.0.0".data, "v".data, VersionFormat.SEMVER⟩ rfl
  exact ⟨h.2.2.1, h.2.2.2⟩

/-- Claim C6: two parsed versions compare equal under `__eq__` iff their
major, minor, patch and prerelease fields agree; when they agree, the
versions are equal and neither is `__lt__`-below the other regardless of
their build fields, which remain stored in the model. -/
theorem claim6_eq :
    ∀ (s t : String) (a b : SemanticVersion), parse s = some a → parse t = some b →
      ((svEq a b = true) ↔ (a.core.major = b.core.major ∧
        a.core.minor = b.core.minor ∧ a.core.patch = b.core.patch ∧
        a.core.prerelease = b.core.prerelease)) ∧
      ((a.core.major = b.core.major ∧ a.core.minor = b.core.minor ∧
        a.core.patch = b.core.patch ∧ a.core.prerelease = b.core.prerelease) →
        svEq a b = true ∧ svLt a b = false ∧ svLt b a = false) := by
  intro s t a b ha hb
  have hwa := parseL_wf ha
  have hwb := parseL_wf hb
  constructor
  · constructor
    · intro he
      have h0 : compareCore a.core b.core = 0 := by
        simpa [svEq] using he
      exact compareCore_zero_fields hwa hwb h0
    · rintro ⟨h1, h2, h3, h4⟩
      simp [svEq, compareCore_fields_eq h1 h2 h3 h4]
  · rintro ⟨h1, h2, h3, h4⟩
    refine ⟨by simp [svEq, compareCore_fields_eq h1 h2 h3 h4], ?_, ?_⟩
    · simp [svLt, compareCore_fields_eq h1 h2 h3 h4]
    · simp [svLt, compareCore_fields_eq h1.symm h2.symm h3.symm h4.symm]

/-- Witness for C6 on two versions differing only in build. -/
theorem claim6_eq_wit :
    svEq ⟨⟨1, 0, 0, none, some "b1".data⟩, "1.0.0+b1".data, [], VersionFormat.SEMVER⟩
        ⟨⟨1, 0, 0, none, some "b2".data⟩, "1.0.0+b2".data, [], VersionFormat.SEMVER⟩ = true ∧
    svLt ⟨⟨1, 0, 0, none, some "b1".data⟩, "1.0.0+b1".data, [], VersionFormat.SEMVER⟩
        ⟨⟨1, 0, 0, none, some "b2".data⟩, "1.0.0+b2".data, [], VersionFormat.SEMVER⟩ = false ∧
    svLt ⟨⟨1, 0, 0, none, some "b2".data⟩, "1.0.0+b2".data, [], VersionFormat.SEMVER⟩
        ⟨⟨1, 0, 0, none, some "b1".data⟩, "1.0.0+b1".data, [], VersionFormat.SEMVER⟩ = false :=
  (claim6_eq "1.0.0+b1" "1.0.0+b2" _ _ rfl rfl).2 ⟨rfl, rfl, rfl, rfl⟩

/-- Claim C7: a `VersionPredicate` record constructs with any operator
string (pydantic validates only field types), storing it unchanged; the
`InvalidOperator` failure surfaces exactly when `operator_to_symbol` is
invoked on an operator outside the six recognised tokens. -/
theorem claim7_operator :
    ∀ (op ver : List Char) (fmt : VersionFormat),
      (VersionPredicate.mk op ver fmt).operator = op ∧
      ((opToSymbol ⟨op, ver, fmt⟩).isSome = true ↔ op ∈ sixOps) := by
  intro op ver fmt
  refine ⟨rfl, ?_, ?_⟩
  · intro h
    rw [opToSymbol] at h
    split_ifs at h with h1 h2 h3 h4 h5 h6
    · subst h1; decide
    · subst h2; decide
    · subst h3; decide
    · subst h4; decide
    · subst h5; decide
    · subst h6; decide
    · simp at h
  · intro h
    fin_cases h <;> rfl

/-- Claim C8: `__eq__` against any value that is not a `SemanticVersion`
raises `NotImplementedError`; it neither returns `False` nor defers with
the `NotImplemented` sentinel. -/
theorem claim8_eq_raises :
    ∀ (v : SemanticVersion) (o : PyObj), (∀ w, o ≠ PyObj.sv w) →
      eqDunder v o = EqOutcome.raisesNotImplementedError ∧
      (∀ b, eqDunder v o ≠ EqOutcome.value b) ∧
      eqDunder v o ≠ EqOutcome.returnsNotImplementedSentinel := by
  intro v o ho
  cases o with
  | sv w => exact absurd rfl (ho w)
  | otherObj =>
    refine ⟨rfl, ?_, ?_⟩
    · intro b h
      cases h
    · intro h
      cases h

/-- Witness for C8. -/
theorem claim8_eq_raises_wit :
    eqDunder ⟨⟨1, 0, 0, none, none⟩, "1.0.0".data, [], VersionFormat.SEMVER⟩
      PyObj.otherObj = EqOutcome.raisesNotImplementedError :=
  (claim8_eq_raises _ PyObj.otherObj (fun w h => PyObj.noConfusion h)).1

/-- Claim C9: every predicate built by `from_str` stores the canonical
semver rendering of its parsed version: the `semver` property re-parses it
successfully (as `SEMVER`, recovering the canonical model whose rendering
is the stored string), and `to_pypi_predicate` and `to_semver_predicate`
never fail on it, the latter returning operator plus the stored string
unchanged. -/
theorem claim9_normalized :
    ∀ (s : String) (p : VersionPredicate), fromStr s = some p →
      (semverOf p).isSome = true ∧
      (semverOf p).map (fun r => r.version_format) = some VersionFormat.SEMVER ∧
      (semverOf p).map (fun r => renderCore r.core) = some p.version ∧
      toSemverPred p = some (p.operator ++ p.version) ∧
      (toPypiPred p).isSome = true := by
  intro s p hp
  obtain ⟨hop, w, hwf, hver⟩ := fromStr_inv hp
  have hsem : semverOf p = some ⟨w.core, p.version, [], VersionFormat.SEMVER⟩ := by
    rw [semverOf, hver]
    exact parseL_render hwf
  refine ⟨by rw [hsem]; rfl, by rw [hsem]; rfl, ?_, ?_, ?_⟩
  · rw [hsem]
    simp only [Option.map_some']
    rw [hver]
  · rw [toSemverPred, hsem]
    simp only [Option.map_some']
    rw [hver]
  · rw [toPypiPred, hsem]
    rfl

/-- Witness for C9 at `">=1.0.0"`. -/
theorem claim9_normalized_wit :
    (semverOf ⟨">=".data, "1.0.0".data, VersionFormat.SEMVER⟩).isSome = true ∧
    toSemverPred ⟨">=".data, "1.0.0".data, VersionFormat.SEMVER⟩ =
      some (">=".data ++ "1.0.0".data) := by
  have h := claim9_normalized ">=1.0.0" ⟨">=".data, "1.0.0".data, VersionFormat.SEMVER⟩ rfl
  exact ⟨h.1, h.2.2.2.1⟩

/-- Claim C10: `installable_version` strips `len(prefix)` characters from
`original_version` exactly when the original string is non-empty; with an
empty original it falls back to `str(self)`, which carries the prefix when
one is set. -/
theorem claim10_installable :
    ∀ (core : VersionCore) (orig pfx : List Char) (fmt : VersionFormat),
      (orig ≠ [] →
        installableChars ⟨core, orig, pfx, fmt⟩ = orig.drop pfx.length) ∧
      (orig = [] →
        installableChars ⟨core, orig, pfx, fmt⟩ = strChars ⟨core, orig, pfx, fmt⟩ ∧
        strChars ⟨core, orig, pfx, fmt⟩ = pfx ++ renderCore core) := by
  intro core orig pfx fmt
  constructor
  · intro h
    rw [installableChars]
    have hne : orig.isEmpty = false := by
      rcases orig with _ | ⟨c, cs⟩
      · exact absurd rfl h
      · rfl
    rw [hne]
    simp
  · intro h
    subst h
    exact ⟨rfl, strChars_eq _⟩

/-- Witness for C10 with an empty original and a set prefix. -/
theorem claim10_installable_wit :
    installableChars ⟨⟨1, 0, 0, none, none⟩, [], "v".data, VersionFormat.SEMVER⟩ =
      strChars ⟨⟨1, 0, 0, none, none⟩, [], "v".data, VersionFormat.SEMVER⟩ ∧
    strChars ⟨⟨1, 0, 0, none, none⟩, [], "v".data, VersionFormat.SEMVER⟩ =
      "v".data ++ renderCore ⟨1, 0, 0, none, none⟩ :=
  (claim10_installable ⟨1, 0, 0, none, none⟩ [] "v".data VersionFormat.SEMVER).2 rfl
